import Mathlib

/-!
Verification development for the IPG parser generator (israeljhuff/ipg).

The C++ sources are shallowly embedded:
* input text is a list of byte values (`List Nat`, each < 256); indexing past
  the end yields 0, matching a NUL-terminated C string;
* the `char` type of the source is signed on the targeted platforms
  (the source itself relies on this: `parse_char` branches on `ch < 0`),
  so comparisons on chars go through `sgn`, the int8 reading of a byte;
* `int32_t` results (lengths, sentinels) are `Int`; the values involved stay
  far from the 32-bit range, so no wrap-around modelling is needed;
* every source-level loop that is not obviously bounded is given a fuel
  parameter and returns `Option`; `none` means the fuel ran out and is never
  a behaviour of the source.
-/

namespace IPG

/-- Byte of `m_text` at an index: `m_text[i]`, with the NUL terminator

giving 0 for any index at or past the end of the buffer. -/
def chAt (t : List Nat) (i : Nat) : Nat := t.getD i 0

/-- Value of a byte read through the (signed) C `char` type. -/
def sgn (b : Nat) : Int := if b < 128 then (b : Int) else (b : Int) - 256

/-- `std::string(&m_text[start], len)`: a slice of the input bytes. -/
def slice (t : List Nat) (start len : Nat) : List Nat := (t.drop start).take len

/-- ASCII bytes of a Lean string literal, for writing byte lists readably. -/
def nm (s : String) : List Nat := s.data.map Char.toNat

/-- Cursor of the grammar parser: the member triple `(m_pos, m_line, m_col)`. -/
structure PState where
  pos : Nat
  line : Nat
  col : Nat
deriving Repr, DecidableEq

/-- `enum class ElemType` of the grammar model. -/
inductive ElemType : Type where
  | NAME | ALT | GROUP | STRING | CH_CLASS
deriving Repr, DecidableEq

/-- `enum class QuantifierType` of the grammar model. -/
inductive QuantifierType : Type where
  | ONE | ZERO_ONE | ZERO_PLUS | ONE_PLUS
deriving Repr, DecidableEq

/-- `class Elem`: type, token strings `m_text`, quantifier, sub-elements. -/
inductive Elem : Type where
  | mk : ElemType → List (List Nat) → QuantifierType → List Elem → Elem

/-- The `m_type` field of an element. -/
def Elem.typeOf : Elem → ElemType
  | .mk ty _ _ _ => ty

/-- The `m_text` token list of an element. -/
def Elem.textOf : Elem → List (List Nat)
  | .mk _ txt _ _ => txt

/-- The `m_quantifier` field of an element. -/
def Elem.quantOf : Elem → QuantifierType
  | .mk _ _ q _ => q

/-- The `m_sub_elems` field of an element. -/
def Elem.subsOf : Elem → List Elem
  | .mk _ _ _ subs => subs

/-- Replace the quantifier of an element (`elem.quantifier() = qt`). -/
def Elem.setQuant : Elem → QuantifierType → Elem
  | .mk ty txt _ subs, q => .mk ty txt q subs

/-- `class Rule`: name, modifier and top-level alternates. -/
structure Rule where
  name : List Nat
  mod : List Nat
  elems : List Elem

/-- `class Grammar`: the rule map and the distinguished root-rule name.

`std::map` iteration order (sorted by key) only influences the order of
printed diagnostics, which no statement below depends on, so the map is
embedded as an association list in insertion order with unique keys. -/
structure Grammar where
  rules : List (List Nat × Rule)
  rule_root : List Nat

/-- `std::map::find` on the rule map. -/
def lookupRule : List (List Nat × Rule) → List Nat → Option Rule
  | [], _ => none
  | (k, r) :: rest, n => if k = n then some r else lookupRule rest n

/-- Key list of the rule map. -/
def keysOf (rs : List (List Nat × Rule)) : List (List Nat) := rs.map Prod.fst

/-- `Rule()`: the default-constructed rule inserted by `std::map::operator[]`. -/
def emptyRule : Rule := ⟨[], [], []⟩

/-- `m_grammar.rules()[n]` lookup side effect: insert a default rule if the

key is absent. -/
def insertDefault (rs : List (List Nat × Rule)) (n : List Nat) :
    List (List Nat × Rule) :=
  if (lookupRule rs n).isSome then rs else rs ++ [(n, emptyRule)]

/-- Update the rule stored under an (existing) key. -/
def updateRule (rs : List (List Nat × Rule)) (n : List Nat) (f : Rule → Rule) :
    List (List Nat × Rule) :=
  rs.map fun p => if p.1 = n then (p.1, f p.2) else p

/-! ### UTF-8 and escape decoding (`utils.h` and `ipg.cpp` helpers) -/

/-- Continuation-byte loop of `utf8_to_int32`: consume `k` further bytes

starting at index `i`, each required to match `10xxxxxx`. -/
def utf8_go : List Nat → Nat → Nat → Nat → Option Nat
  | _, _, val, 0 => some val
  | str, i, val, k+1 =>
    let byte := chAt str i
    if byte &&& 0xc0 = 0x80 then utf8_go str (i+1) (val * 64 + (byte &&& 0x3f)) k
    else none

/-- `utf8_to_int32` from `utils.h`: decode one UTF-8 sequence, returning the

code point and the byte length, or `none` for the source's `-1`. -/
def utf8_to_int32 (str : List Nat) : Option (Nat × Nat) :=
  let byte := chAt str 0
  if byte &&& 0x80 = 0 then some (byte, 1)
  else if byte &&& 0xe0 = 0xc0 then (utf8_go str 1 (byte &&& 0x1f) 1).map (fun v => (v, 2))
  else if byte &&& 0xf0 = 0xe0 then (utf8_go str 1 (byte &&& 0x0f) 2).map (fun v => (v, 3))
  else if byte &&& 0xf8 = 0xf0 then (utf8_go str 1 (byte &&& 0x07) 3).map (fun v => (v, 4))
  else none

/-- The private member `utf8_to_int32` of `ParseGen` in `ipg.cpp`: the same

computation as the `utils.h` decoder but returning only the value, with `-1`
for failure. -/
def utf8_to_int32_val (str : List Nat) : Int :=
  match utf8_to_int32 str with
  | some (v, _) => (v : Int)
  | none => -1

/-- `is_hex_char`. -/
def is_hex_char (b : Nat) : Bool :=
  decide ((48 ≤ b ∧ b ≤ 57) ∨ (65 ≤ b ∧ b ≤ 70) ∨ (97 ≤ b ∧ b ≤ 102))

/-- Digit loop of `hex_to_int32` over `k` remaining characters. -/
def hex_go : List Nat → Nat → Int → Nat → Int
  | _, _, val, 0 => val
  | str, i, val, k+1 =>
    let ch := chAt str i
    if 48 ≤ ch ∧ ch ≤ 57 then hex_go str (i+1) (val * 16 + ((ch : Int) - 48)) k
    else if 65 ≤ ch ∧ ch ≤ 70 then hex_go str (i+1) (val * 16 + ((ch : Int) - 65 + 10)) k
    else if 97 ≤ ch ∧ ch ≤ 102 then hex_go str (i+1) (val * 16 + ((ch : Int) - 97 + 10)) k
    else -1

/-- `hex_to_int32`: convert a hex string of 4 or 8 characters. -/
def hex_to_int32 (str : List Nat) (len : Nat) : Int :=
  if len ≠ 4 ∧ len ≠ 8 then -1 else hex_go str 0 0 len

/-- `esc_to_int32`: decode a backslash escape sequence to a code point. -/
def esc_to_int32 (str : List Nat) : Int :=
  if chAt str 0 ≠ 92 then -1 else
  let ch := chAt str 1
  if ch = 97 then 0x7            -- a
  else if ch = 98 then 0x8       -- b
  else if ch = 102 then 0xc      -- f
  else if ch = 110 then 0xa      -- n
  else if ch = 114 then 0xd      -- r
  else if ch = 116 then 0x9      -- t
  else if ch = 118 then 0xb      -- v
  else if ch = 33 then 0x21      -- !
  else if ch = 34 then 0x22      -- quote
  else if ch = 45 then 0x2d      -- hyphen
  else if ch = 91 then 0x5b      -- [
  else if ch = 92 then 0x5c      -- backslash
  else if ch = 93 then 0x5d      -- ]
  else if ch = 94 then 0x5e      -- caret
  else if ch = 117 then hex_to_int32 (str.drop 2) 4   -- u
  else if ch = 85 then hex_to_int32 (str.drop 2) 8    -- U
  else -1

/-- `decode_to_int32`: escape decoding when the string opens with a

backslash, UTF-8 decoding otherwise; the flag is the `*escaped` out
parameter. -/
def decode_to_int32 (str : List Nat) : Bool × Int :=
  if chAt str 0 = 92 then (true, esc_to_int32 str)
  else (false, utf8_to_int32_val str)

/-- `parse_utf8_char` of `ipg.cpp` (both versions): length of the UTF-8

sequence at `pos`, validating every byte of a multi-byte sequence with
mask `0xc0` against `0xc0` as written in the source. -/
def parse_utf8_char (t : List Nat) (pos : Nat) : Int :=
  let byte := chAt t pos
  if byte &&& 0x80 = 0 then 1
  else
    let n_bytes : Option Nat :=
      if byte &&& 0xe0 = 0xc0 then some 2
      else if byte &&& 0xf0 = 0xe0 then some 3
      else if byte &&& 0xf8 = 0xf0 then some 4
      else none
    match n_bytes with
    | none => -1
    | some n =>
      if (List.range n).all (fun i => chAt t (pos + i) &&& 0xc0 == 0xc0) then (n : Int)
      else -1


/-! ### Grammar lexing primitives (`ipg.cpp`, private methods of `ParseGen`) -/

/-- `parse_ws`: consume `[ \t\r\n]*`; newline advances the line and resets

the column, carriage return advances neither line nor column. -/
def parse_ws (fuel : Nat) (t : List Nat) (s : PState) : Option PState :=
  match fuel with
  | 0 => none
  | f+1 =>
    let ch := chAt t s.pos
    if ch = 32 ∨ ch = 9 ∨ ch = 13 then
      parse_ws f t { s with pos := s.pos + 1, col := if ch = 13 then s.col else s.col + 1 }
    else if ch = 10 then
      parse_ws f t { pos := s.pos + 1, line := s.line + 1, col := 1 }
    else some s

/-- Body loop of `parse_comment`: advance to the end of the line. -/
def parse_comment_go (fuel : Nat) (t : List Nat) (s : PState) : Option PState :=
  match fuel with
  | 0 => none
  | f+1 =>
    let s1 : PState := { s with pos := s.pos + 1, col := s.col + 1 }
    let ch := chAt t s1.pos
    if ch = 13 ∨ ch = 10 ∨ ch = 0 then some s1
    else parse_comment_go f t s1

/-- `parse_comment`: consume `# …` to end of line, or nothing. -/
def parse_comment (fuel : Nat) (t : List Nat) (s : PState) : Option PState :=
  if chAt t s.pos ≠ 35 then some s else parse_comment_go fuel t s

/-- The `(comment ws)*` do-while loop appearing in `parse_grammar` and at

the end of `parse_rule`. -/
def ws_comments (fuel : Nat) (t : List Nat) (s : PState) : Option PState :=
  match fuel with
  | 0 => none
  | f+1 =>
    let prev := s.pos
    match parse_comment f t s with
    | none => none
    | some s1 =>
      match parse_ws f t s1 with
      | none => none
      | some s2 =>
        if chAt t s2.pos ≠ 0 ∧ prev ≠ s2.pos then ws_comments f t s2 else some s2

/-- Tail loop of `parse_id`: consume `[0-9A-Za-z_]*`. -/
def parse_id_go (fuel : Nat) (t : List Nat) (s : PState) (len : Nat) :
    Option (Int × PState) :=
  match fuel with
  | 0 => none
  | f+1 =>
    let ch := chAt t s.pos
    if ch = 95 ∨ (48 ≤ ch ∧ ch ≤ 57) ∨ (65 ≤ ch ∧ ch ≤ 90) ∨ (97 ≤ ch ∧ ch ≤ 122) then
      parse_id_go f t { s with pos := s.pos + 1, col := s.col + 1 } (len + 1)
    else some ((len : Int), s)

/-- `parse_id`: an identifier `[A-Za-z][0-9A-Za-z_]*`; returns its length,

or `-1` without moving the cursor. -/
def parse_id (fuel : Nat) (t : List Nat) (s : PState) : Option (Int × PState) :=
  let ch := chAt t s.pos
  if ¬((65 ≤ ch ∧ ch ≤ 90) ∨ (97 ≤ ch ∧ ch ≤ 122)) then some (-1, s)
  else parse_id_go fuel t { s with pos := s.pos + 1, col := s.col + 1 } 1

/-- Scanning loop of `parse_string`; `s0` is the cursor saved at entry and

restored when a byte below `' '` (through the signed `char` comparison of the
source, so also any byte at or above `0x80`) ends the literal before an
unescaped closing quote. -/
def parse_string_go (fuel : Nat) (t : List Nat) (s0 s : PState) (len : Nat)
    (esc : Bool) (elems : List Elem) : Option (Int × PState × List Elem) :=
  match fuel with
  | 0 => none
  | f+1 =>
    let ch := chAt t s.pos
    if sgn ch < 32 then some (-1, s0, elems)
    else if ch = 92 ∧ ¬esc then
      parse_string_go f t s0 { s with pos := s.pos + 1, col := s.col + 1 } (len + 1) true elems
    else if ch = 34 ∧ ¬esc then
      let s2 : PState := { s with pos := s.pos + 1, col := s.col + 1 }
      let len2 := len + 1
      some ((len2 : Int), s2,
        elems ++ [Elem.mk ElemType.STRING [slice t (s2.pos - len2) len2] QuantifierType.ONE []])
    else
      parse_string_go f t s0 { s with pos := s.pos + 1, col := s.col + 1 } (len + 1) false elems

/-- `parse_string`: a double-quoted literal; on success the raw text with

the surrounding quotes is stored as the single token of a `STRING` element. -/
def parse_string (fuel : Nat) (t : List Nat) (s : PState) (elems : List Elem) :
    Option (Int × PState × List Elem) :=
  if chAt t s.pos ≠ 34 then some (-1, s, elems)
  else parse_string_go fuel t s { s with pos := s.pos + 1, col := s.col + 1 } 1 false elems

/-- Reserved characters that must be escaped in a character class

(`ch_class_reserve_chars = "!-[\]^"`). -/
def ch_class_reserve_chars : List Nat := [33, 45, 91, 92, 93, 94]

/-- Valid single-character escapes (`esc_chars = "!-[\]^abfnrtv"`). -/
def esc_chars : List Nat := [33, 45, 91, 92, 93, 94, 97, 98, 102, 110, 114, 116, 118]

/-- Hex-digit run of `parse_char`: consume up to `n` hex characters. -/
def hex_run : Nat → List Nat → PState → Nat × PState
  | 0, _, s => (0, s)
  | n+1, t, s =>
    if is_hex_char (chAt t s.pos) then
      let r := hex_run n t { s with pos := s.pos + 1, col := s.col + 1 }
      (r.1 + 1, r.2)
    else (0, s)

/-- `parse_char`: one character inside a character class — a raw byte, a

UTF-8 sequence, or a backslash escape (single-char, `\uXXXX`, `\UXXXXXXXX`);
the consumed source text is appended to the element's token list. Note that
on an invalid escape the cursor stays advanced past the backslash. -/
def parse_char (t : List Nat) (s : PState) (tok : List (List Nat)) :
    Int × PState × List (List Nat) :=
  let ch := chAt t s.pos
  if sgn ch ≥ 0 ∧ sgn ch < 32 then (-1, s, tok)
  else if sgn ch < 0 then
    -- high bit set: UTF-8 sequence
    let len := parse_utf8_char t s.pos
    if len < 0 then (-1, s, tok)
    else (len, { s with pos := s.pos + len.toNat, col := s.col + len.toNat },
      tok ++ [slice t s.pos len.toNat])
  else if ch = 92 then
    -- escape: consume the backslash first
    let s1 : PState := { s with pos := s.pos + 1, col := s.col + 1 }
    let ch2 := chAt t s1.pos
    if sgn ch2 ≥ 0 ∧ sgn ch2 < 32 then (-1, s1, tok)
    else if ch2 ∈ esc_chars then
      let s2 : PState := { s1 with pos := s1.pos + 1, col := s1.col + 1 }
      (2, s2, tok ++ [slice t (s2.pos - 2) 2])
    else if ch2 = 117 then
      -- \u followed by exactly 4 hex digits
      let s2 : PState := { s1 with pos := s1.pos + 1, col := s1.col + 1 }
      let r := hex_run 4 t s2
      if r.1 < 4 then (-1, r.2, tok)
      else (6, r.2, tok ++ [slice t (r.2.pos - 6) 6])
    else if ch2 = 85 then
      -- \U followed by exactly 8 hex digits
      let s2 : PState := { s1 with pos := s1.pos + 1, col := s1.col + 1 }
      let r := hex_run 8 t s2
      if r.1 < 8 then (-1, r.2, tok)
      else (10, r.2, tok ++ [slice t (r.2.pos - 10) 10])
    else (-1, s1, tok)
  else
    -- plain 1-byte character
    (1, { s with pos := s.pos + 1, col := s.col + 1 }, tok ++ [slice t s.pos 1])

/-- `parse_ch_class_range`: `char ("-" char)?` inside a character class.

Tokens are pushed into the element as they are consumed (and are kept even
when the range fails afterwards, as in the source); the lower-vs-upper
validation reads the tokens at the fixed indices 1 and 3 of the element's
whole token list, exactly as written in the source. -/
def parse_ch_class_range (t : List Nat) (s : PState) (tok : List (List Nat)) :
    Int × PState × List (List Nat) :=
  let ch := chAt t s.pos
  if ch = 93 then (-1, s, tok) else
  let r1 := parse_char t s tok
  if r1.1 < 0 then (-1, r1.2.1, r1.2.2) else
  -- disallow an unescaped reserved character
  if r1.1 = 1 ∧ ((r1.2.2.getLastD []).headD 0) ∈ ch_class_reserve_chars then
    (-1, r1.2.1, r1.2.2)
  else
  let len1 := r1.1
  let s1 := r1.2.1
  let tok1 := r1.2.2
  let ch2 := chAt t s1.pos
  if ch2 ≠ 45 then (len1, s1, tok1) else
  let tok2 := tok1 ++ [slice t s1.pos 1]
  let s2 : PState := { s1 with pos := s1.pos + 1, col := s1.col + 1 }
  -- cannot end with a trailing hyphen
  let ch3 := chAt t s2.pos
  if ch3 = 93 then (-1, s2, tok2) else
  let r2 := parse_char t s2 tok2
  if r2.1 < 0 then (-1, r2.2.1, r2.2.2) else
  if r2.1 = 1 ∧ ch3 ∈ ch_class_reserve_chars then (-1, r2.2.1, r2.2.2)
  else
  -- error if first element >= second one: reads token indices 1 and 3
  let c1 := (decode_to_int32 (r2.2.2.getD 1 [])).2
  let c2 := (decode_to_int32 (r2.2.2.getD 3 [])).2
  if c1 ≥ c2 then (-1, r2.2.1, r2.2.2)
  else (len1 + 1 + r2.1, r2.2.1, r2.2.2)

/-- Drop the last `n` tokens (`elem.text().pop_back()` repeated). -/
def popTokens (tok : List (List Nat)) : Nat → List (List Nat)
  | 0 => tok
  | n+1 => popTokens tok.dropLast n

/-- The `0 or more additional ranges` loop of `parse_ch_class`: each

iteration snapshots the cursor, optionally consumes a per-range `!`, and
attempts a range; on range failure the cursor is restored to the snapshot,
the `!` tokens counted by `valid_range_elements` are popped, and the loop
breaks. -/
def ranges_go (fuel : Nat) (t : List Nat) (s : PState) (tok : List (List Nat))
    (len : Int) : Option (PState × List (List Nat) × Int) :=
  match fuel with
  | 0 => none
  | f+1 =>
    let ch := chAt t s.pos
    if ch = 93 then some (s, tok, len)
    else
      let neg := ch = 33
      let tokN := if neg then tok ++ [[33]] else tok
      let sN : PState := if neg then { s with pos := s.pos + 1, col := s.col + 1 } else s
      let lenRange : Int := if neg then 1 else 0
      let vre : Nat := if neg then 1 else 0
      let r := parse_ch_class_range t sN tokN
      if r.1 = -1 then some (s, popTokens r.2.2 vre, len)
      else ranges_go f t r.2.1 r.2.2 (len + lenRange + r.1)

/-- `parse_ch_class`: a bracket expression `[` `^`? range (`!`? range)* `]`;

on success a `CH_CLASS` element holding the token stream is appended. -/
def parse_ch_class (fuel : Nat) (t : List Nat) (s : PState) (elems : List Elem) :
    Option (Int × PState × List Elem) :=
  let ch := chAt t s.pos
  if ch ≠ 91 then some (-1, s, elems) else
  let tok0 : List (List Nat) := [[91]]
  let s1 : PState := { s with pos := s.pos + 1, col := s.col + 1 }
  let ch1 := chAt t s1.pos
  -- optional logical not for the entire expression
  let caret := ch1 = 94
  let tok1 := if caret then tok0 ++ [[94]] else tok0
  let s2 : PState := if caret then { s1 with pos := s1.pos + 1, col := s1.col + 1 } else s1
  let len2 : Int := if caret then 2 else 1
  -- first range is required
  let r1 := parse_ch_class_range t s2 tok1
  if r1.1 = -1 then some (-1, s, elems) else
  match ranges_go fuel t r1.2.1 r1.2.2 (len2 + r1.1) with
  | none => none
  | some (s3, tok3, len3) =>
    let ch3 := chAt t s3.pos
    if ch3 ≠ 93 ∨ len3 ≤ 0 then some (-1, s, elems)
    else some (len3 + 1, { s3 with pos := s3.pos + 1, col := s3.col + 1 },
      elems ++ [Elem.mk ElemType.CH_CLASS (tok3 ++ [[93]]) QuantifierType.ONE []])

/-! ### The grammar parser proper (`parse_alts` … `parse_grammar`) -/

/-- Set the quantifier of the last pushed element

(`elems[elems.size() - 1].quantifier() = qt`; the vector is never empty when
this runs in the source). -/
def setQuantLast (elems : List Elem) (q : QuantifierType) : List Elem :=
  match elems.getLast? with
  | none => elems
  | some e => elems.dropLast ++ [e.setQuant q]

mutual

/-- `parse_alts`: `alt (ws "|" ws alt)*`, parsed by the loop `parse_alts_go`;

rejects a trailing `|` and an empty alternation. -/
def parse_alts (fuel : Nat) (t : List Nat) (s : PState) (elems : List Elem) :
    Option (Int × PState × List Elem) :=
  match fuel with
  | 0 => none
  | f+1 => parse_alts_go f t s elems 0 false

/-- Loop body of `parse_alts`. -/
def parse_alts_go (fuel : Nat) (t : List Nat) (s : PState) (elems : List Elem)
    (len : Int) (trailing : Bool) : Option (Int × PState × List Elem) :=
  match fuel with
  | 0 => none
  | f+1 =>
    if chAt t s.pos = 0 then
      if len ≤ 0 ∨ trailing then some (-1, s, elems) else some (len, s, elems)
    else
      match parse_alt f t s [] with
      | none => none
      | some (len_el, s1, subs) =>
        if len_el = -1 then
          if len ≤ 0 ∨ trailing then some (-1, s1, elems) else some (len, s1, elems)
        else
          let len1 := len + len_el
          let elems1 := elems ++ [Elem.mk ElemType.ALT [] QuantifierType.ONE subs]
          match parse_ws f t s1 with
          | none => none
          | some s2 =>
            if chAt t s2.pos = 124 then
              let s3 : PState := { s2 with pos := s2.pos + 1, col := s2.col + 1 }
              match parse_ws f t s3 with
              | none => none
              | some s4 => parse_alts_go f t s4 elems1 (len1 + 1) true
            else
              if len1 ≤ 0 then some (-1, s2, elems1) else some (len1, s2, elems1)

/-- `parse_alt`: `elem (ws elem)*`, parsed by the loop `parse_alt_go`. -/
def parse_alt (fuel : Nat) (t : List Nat) (s : PState) (elems : List Elem) :
    Option (Int × PState × List Elem) :=
  match fuel with
  | 0 => none
  | f+1 => parse_alt_go f t s elems 0

/-- Loop body of `parse_alt`. -/
def parse_alt_go (fuel : Nat) (t : List Nat) (s : PState) (elems : List Elem)
    (len : Int) : Option (Int × PState × List Elem) :=
  match fuel with
  | 0 => none
  | f+1 =>
    if chAt t s.pos = 0 then
      if len ≤ 0 then some (-1, s, elems) else some (len, s, elems)
    else
      match parse_element f t s elems with
      | none => none
      | some (len_el, s1, elems1) =>
        if len_el ≤ 0 then
          if len ≤ 0 then some (-1, s1, elems1) else some (len, s1, elems1)
        else
          match parse_ws f t s1 with
          | none => none
          | some s2 => parse_alt_go f t s2 elems1 (len + len_el)

/-- `parse_element`: `(group | id | ch_class | string) [?*+]?` repeated up

to `;` or the end of input, parsed by `parse_element_go`. The four
sub-parses are attempted in order, each starting from the state the previous
failed attempt left behind, exactly as in the source. -/
def parse_element (fuel : Nat) (t : List Nat) (s : PState) (elems : List Elem) :
    Option (Int × PState × List Elem) :=
  match fuel with
  | 0 => none
  | f+1 => parse_element_go f t s elems 0

/-- One iteration of the `parse_element` loop: the breakable attempt block,

the length check, optional quantifier, and the `len_item <= 0` exit. -/
def parse_element_go (fuel : Nat) (t : List Nat) (s : PState) (elems : List Elem)
    (len : Int) : Option (Int × PState × List Elem) :=
  match fuel with
  | 0 => none
  | f+1 =>
    if chAt t s.pos = 59 ∨ chAt t s.pos = 0 then some (len, s, elems)
    else
      -- the for (i = 0; i < 1; i++) attempt block
      let attempt : Option (Int × Int × PState × List Elem) :=
        match parse_group f t s elems with
        | none => none
        | some (lg, sg, eg) =>
          if lg > 0 then some (lg, len + lg, sg, eg)
          else
            match parse_id f t sg with
            | none => none
            | some (lid, sid) =>
              if lid > 0 then
                let name := slice t (sid.pos - lid.toNat) lid.toNat
                some (lid, len + lid, sid, eg ++ [Elem.mk ElemType.NAME [name] QuantifierType.ONE []])
              else
                match parse_ch_class f t sid eg with
                | none => none
                | some (lcc, scc, ecc) =>
                  if lcc > 0 then some (lcc, len + lcc, scc, ecc)
                  else
                    match parse_string f t scc ecc with
                    | none => none
                    | some (ls, ss, es) =>
                      if ls ≥ 0 then some (ls, len + ls, ss, es)
                      else some (ls, len, ss, es)
      match attempt with
      | none => none
      | some (len_item, len1, s1, elems1) =>
        if len1 ≤ 0 then some (-1, s1, elems1)
        else
          match parse_ws f t s1 with
          | none => none
          | some s2 =>
            let ch := chAt t s2.pos
            if ch = 63 ∨ ch = 42 ∨ ch = 43 then
              let qt : QuantifierType :=
                if ch = 63 then QuantifierType.ZERO_ONE
                else if ch = 42 then QuantifierType.ZERO_PLUS
                else QuantifierType.ONE_PLUS
              let elems2 := setQuantLast elems1 qt
              let s3 : PState := { s2 with pos := s2.pos + 1, col := s2.col + 1 }
              match parse_ws f t s3 with
              | none => none
              | some s4 =>
                if len_item ≤ 0 then some (len1 + 1, s4, elems2)
                else parse_element_go f t s4 elems2 (len1 + 1)
            else
              if len_item ≤ 0 then some (len1, s2, elems1)
              else parse_element_go f t s2 elems1 len1

/-- `parse_group`: `"(" ws alts ws ")"`. The failure paths reassign the

`*_prev` snapshot variables from the cursor instead of restoring the cursor
from them, exactly as the source does, so a failing group can leave the
cursor advanced. -/
def parse_group (fuel : Nat) (t : List Nat) (s : PState) (elems : List Elem) :
    Option (Int × PState × List Elem) :=
  match fuel with
  | 0 => none
  | f+1 =>
    if chAt t s.pos ≠ 40 then some (-1, s, elems)
    else
      let s1 : PState := { s with pos := s.pos + 1, col := s.col + 1 }
      match parse_ws f t s1 with
      | none => none
      | some s2 =>
        match parse_alts f t s2 [] with
        | none => none
        | some (len_alts, s3, subs) =>
          if len_alts < 0 then some (-1, s3, elems)
          else
            match parse_ws f t s3 with
            | none => none
            | some s4 =>
              if chAt t s4.pos ≠ 41 then some (-1, s4, elems)
              else some (1 + len_alts + 1, { s4 with pos := s4.pos + 1, col := s4.col + 1 },
                elems ++ [Elem.mk ElemType.GROUP [] QuantifierType.ONE subs])

end

/-- `parse_rule`: `ws id ws mod? ws ":" ws alts ws ";" ws (comment ws)*`,

recording the first rule name as the root, rejecting duplicate rule names
and modifiers outside the closed set, and storing the parsed alternates in
the rule map. -/
def parse_rule (fuel : Nat) (t : List Nat) (s : PState) (g : Grammar) :
    Option (Bool × PState × Grammar) :=
  match fuel with
  | 0 => none
  | f+1 =>
    match parse_ws f t s with
    | none => none
    | some s1 =>
      match parse_id f t s1 with
      | none => none
      | some (len_name, s2) =>
        if len_name ≤ 0 then some (false, s2, g)
        else
          let rule_name := slice t (s2.pos - len_name.toNat) len_name.toNat
          -- first parsed rule is the root of the grammar
          let g1 := if g.rule_root = [] then { g with rule_root := rule_name } else g
          if (lookupRule g1.rules rule_name).isSome then
            -- ERROR: duplicate rule name
            some (false, s2, g1)
          else
            let g2 : Grammar := { g1 with rules := g1.rules ++ [(rule_name, ⟨rule_name, [], []⟩)] }
            match parse_ws f t s2 with
            | none => none
            | some s3 =>
              match parse_id f t s3 with
              | none => none
              | some (len_mod, s4) =>
                let modChk : Option Grammar :=
                  if len_mod > 0 then
                    let m := slice t (s4.pos - len_mod.toNat) len_mod.toNat
                    if m ≠ nm ("discard") ∧ m ≠ nm ("inline") ∧ m ≠ nm ("mergeup") then none
                    else some { g2 with rules := updateRule g2.rules rule_name (fun r => { r with mod := m }) }
                  else some g2
                match modChk with
                | none => some (false, s4, g2)
                | some g3 =>
                  match parse_ws f t s4 with
                  | none => none
                  | some s5 =>
                    if chAt t s5.pos ≠ 58 then some (false, s5, g3)
                    else
                      let s6 : PState := { s5 with pos := s5.pos + 1, col := s5.col + 1 }
                      match parse_ws f t s6 with
                      | none => none
                      | some s7 =>
                        match parse_alts f t s7 [] with
                        | none => none
                        | some (len_alts, s8, alt_elems) =>
                          let g4 : Grammar :=
                            { g3 with rules := updateRule g3.rules rule_name (fun r => { r with elems := alt_elems }) }
                          if len_alts = -1 then some (false, s8, g4)
                          else
                            match parse_ws f t s8 with
                            | none => none
                            | some s9 =>
                              if chAt t s9.pos ≠ 59 then some (false, s9, g4)
                              else
                                let s10 : PState := { s9 with pos := s9.pos + 1, col := s9.col + 1 }
                                match parse_ws f t s10 with
                                | none => none
                                | some s11 =>
                                  match ws_comments f t s11 with
                                  | none => none
                                  | some s12 => some (true, s12, g4)

/-- The `rule+` loop of `parse_grammar`. -/
def parse_grammar_go (fuel : Nat) (t : List Nat) (s : PState) (g : Grammar) :
    Option (Bool × PState × Grammar) :=
  match fuel with
  | 0 => none
  | f+1 =>
    if chAt t s.pos = 0 then some (true, s, g)
    else
      match parse_rule f t s g with
      | none => none
      | some (ok, s1, g1) =>
        if ok then parse_grammar_go f t s1 g1 else some (false, s1, g1)

/-- `parse_grammar`: leading whitespace and comments, then rules until the

end of the input. -/
def parse_grammar (fuel : Nat) (t : List Nat) (s : PState) (g : Grammar) :
    Option (Bool × PState × Grammar) :=
  match fuel with
  | 0 => none
  | f+1 =>
    match parse_ws f t s with
    | none => none
    | some s1 =>
      match ws_comments f t s1 with
      | none => none
      | some s2 => parse_grammar_go f t s2 g

/-! ### The grammar validator (`check_rule_elems`, `check_rules`) -/

/-- Validator diagnostics printed to stderr. -/
inductive CErr : Type where
  | undef (n : List Nat)
  | unreach (n : List Nat)
deriving Repr, DecidableEq

/-- Insertion into one of the `std::map<std::string, bool>` sets of

`check_rules` (membership is all that matters; see `Grammar`). -/
def insertSet (n : List Nat) (l : List (List Nat)) : List (List Nat) :=
  if n ∈ l then l else l ++ [n]

mutual

/-- `check_rule_elems`: record the name of a `NAME` element in

`to_visit_new` unless it is already pending or visited, then recurse into
the sub-elements. -/
def collectElem (tv vis : List (List Nat)) (e : Elem) (acc : List (List Nat)) :
    List (List Nat) :=
  match e with
  | .mk ty txt _ subs =>
    let acc1 :=
      if ty = ElemType.NAME then
        let n := txt.headD []
        if n ∉ tv ∧ n ∉ vis then insertSet n acc else acc
      else acc
    collectList tv vis subs acc1

/-- The loop of `check_rule_elems` over sub-elements. -/
def collectList (tv vis : List (List Nat)) (es : List Elem) (acc : List (List Nat)) :
    List (List Nat) :=
  match es with
  | [] => acc
  | e :: rest => collectList tv vis rest (collectElem tv vis e acc)

end

/-- Evolving state of the `check_rules` walk: the visited set, the rule map

(which `operator[]` grows by an empty rule at each undefined name), the
diagnostics, the accumulated boolean, and the `to_visit_new` set of the
current round. -/
structure BfsSt where
  vis : List (List Nat)
  gMut : List (List Nat × Rule)
  errs : List CErr
  retval : Bool
  tvn : List (List Nat)

/-- The elements of `m_grammar.rules()[rule_name]` as read by the elems

loop of `check_rules` (empty for the just-inserted empty rule). -/
def elemsOfName (rs : List (List Nat × Rule)) (n : List Nat) : List Elem :=
  match lookupRule rs n with
  | some r => r.elems
  | none => []

/-- Body of the `for (auto rule : to_visit)` loop of `check_rules`:

mark the name visited, report it if it is not a rule of the (current) map,
then look it up through `operator[]` — inserting an empty rule when absent —
and collect the names referenced from its elements. -/
def processName (tv : List (List Nat)) (st : BfsSt) (n : List Nat) : BfsSt :=
  let vis1 := insertSet n st.vis
  let undefHere := (lookupRule st.gMut n).isNone
  let errs1 := if undefHere then st.errs ++ [CErr.undef n] else st.errs
  let ret1 := if undefHere then false else st.retval
  let gMut1 := insertDefault st.gMut n
  let elems := elemsOfName gMut1 n
  let tvn1 := collectList tv vis1 elems st.tvn
  ⟨vis1, gMut1, errs1, ret1, tvn1⟩

/-- One round of the `while (to_visit.size() > 0)` loop. -/
def runRound (tv : List (List Nat)) (st : BfsSt) : BfsSt :=
  tv.foldl (processName tv) st

/-- The outer loop of `check_rules`: run rounds until `to_visit` is empty,

each time replacing `to_visit` with `to_visit_new` minus the visited
names. -/
def bfsLoop (fuel : Nat) (tv : List (List Nat)) (st : BfsSt) : Option BfsSt :=
  if tv = [] then some st
  else
    match fuel with
    | 0 => none
    | f+1 =>
      let st1 := runRound tv { st with tvn := [] }
      let tv1 := st1.tvn.filter (fun x => decide (x ∉ st1.vis))
      bfsLoop f tv1 st1

/-- Result of `check_rules`: the returned boolean together with the final

visited set, rule map and diagnostics. -/
structure CheckOut : Type where
  retval : Bool
  vis : List (List Nat)
  gMut : List (List Nat × Rule)
  errs : List CErr

/-- `check_rules`: breadth-first walk from the root rule reporting

undefined referenced rules, then a size comparison of the (mutated) rule
map against the visited set reporting unreachable rules. -/
def check_rules (fuel : Nat) (g : Grammar) : Option CheckOut :=
  match bfsLoop fuel [g.rule_root] ⟨[], g.rules, [], true, []⟩ with
  | none => none
  | some st =>
    if st.gMut.length > st.vis.length then
      some ⟨false, st.vis, st.gMut,
        st.errs ++ ((keysOf st.gMut).filter (fun k => decide (k ∉ st.vis))).map CErr.unreach⟩
    else some ⟨st.retval, st.vis, st.gMut, st.errs⟩

/-! ### The command-line driver (`main` of `ipg.cpp`) -/

/-- `main`: usage, file-open and file-read failures exit 1; afterwards the

grammar is parsed and validated, a parser is emitted or an error printed,
and the function falls through to `return 0` in either case. The command
line and the file system are abstracted into the argument count, the opened
file's bytes (`none` when `fopen` fails) and the read-success flag. -/
def main_ret (fuel : Nat) (argc : Nat) (file : Option (List Nat)) (read_ok : Bool) :
    Option Int :=
  if argc < 2 then some 1
  else
    match file with
    | none => some 1
    | some buf =>
      if read_ok = false then some 1
      else
        match parse_grammar fuel buf ⟨0, 1, 1⟩ ⟨[], []⟩ with
        | none => none
        | some (ok1, _, g1) =>
          if ok1 then
            match check_rules fuel g1 with
            | none => none
            | some co =>
              -- print_parser() and debug output, or the parse-error message:
              -- either way the driver returns 0
              if co.retval then some 0 else some 0
          else some 0

/-! ### Reachability specification for the validator -/

mutual

/-- Names of the `NAME` elements occurring in an element, including those

nested in `ALT`/`GROUP` sub-elements. -/
def elemNames (e : Elem) : List (List Nat) :=
  match e with
  | .mk ty txt _ subs =>
    (if ty = ElemType.NAME then [txt.headD []] else []) ++ elemNamesList subs

/-- `elemNames` over a list of elements. -/
def elemNamesList (es : List Elem) : List (List Nat) :=
  match es with
  | [] => []
  | e :: rest => elemNames e ++ elemNamesList rest

end

/-- Names referenced from the rule stored under `n` (empty when `n` is not

a rule of the map). -/
def neighbors (rs : List (List Nat × Rule)) (n : List Nat) : List (List Nat) :=
  match lookupRule rs n with
  | some r => elemNamesList r.elems
  | none => []

/-- One reference step between names of a grammar. -/
def Step (g : Grammar) (a b : List Nat) : Prop := b ∈ neighbors g.rules a

/-- A name is reachable from the root rule through `NAME` references. -/
def Reaches (g : Grammar) (n : List Nat) : Prop :=
  Relation.ReflTransGen (Step g) g.rule_root n

/-- Every `NAME` element of the grammar references a rule present in it. -/
def allNamesDefined (g : Grammar) : Prop :=
  ∀ p ∈ g.rules, ∀ m ∈ elemNamesList p.2.elems, m ∈ keysOf g.rules

/-- Every rule of the grammar is reachable from the root rule. -/
def allReachable (g : Grammar) : Prop :=
  ∀ p ∈ g.rules, Reaches g p.1

/-! ### The emitted parser: rule skeleton and alternate skeleton

These model the text produced by `print_rule`, `print_alt` and `print_elem`
(the version of the source whose alternates block restores the cursor,
i.e. `part_002`), with the element bodies produced by `print_elem_inner`
abstracted into state transformers. -/

/-- Cursor and furthest-progress state of the emitted parser. -/
structure EmitState where
  pos : Nat
  line : Nat
  col : Nat
  pos_ok : Nat
  line_ok : Nat
  col_ok : Nat
deriving Repr, DecidableEq

/-- Behaviour of an emitted element body (`print_elem_inner` output): sets

`ok_d` and may move the cursor. -/
def ESem : Type := EmitState → Bool × EmitState

/-- The furthest-progress update emitted after every successful element. -/
def upd_ok (s : EmitState) : EmitState :=
  if s.pos > s.pos_ok then { s with pos_ok := s.pos, line_ok := s.line, col_ok := s.col }
  else s

/-- The loop emitted for a `*` quantifier: repeat the body until it fails,

keeping whatever the failing run consumed. -/
def zeroPlusLoop : Nat → ESem → EmitState → Option EmitState
  | 0, _, _ => none
  | f+1, inner, s =>
    let r := inner s
    if r.1 then zeroPlusLoop f inner r.2 else some r.2

/-- The loop emitted for a `+` quantifier, returning the iteration count,

the value `pos_start` holds after the loop, and the final state. -/
def onePlusLoop : Nat → ESem → EmitState → Nat → Option (Nat × Nat × EmitState)
  | 0, _, _, _ => none
  | f+1, inner, s, counter =>
    let ps := s.pos
    let r := inner s
    if r.1 then onePlusLoop f inner r.2 (counter + 1) else some (counter, ps, r.2)

/-- The code emitted by `print_elem` for one element: the quantifier

wrapper around the body, then the shared failure block — which restores
`m_pos` from `pos_start` (reassigned at the start of each body run) and
`m_line`/`m_col` from the `line_start`/`col_start` saved at the start of
the enclosing alternate — or, on success, the furthest-progress update. -/
def elemStep (fuel : Nat) (line0 col0 : Nat) (q : QuantifierType) (inner : ESem)
    (s : EmitState) : Option (Bool × EmitState) :=
  match q with
  | .ONE =>
    let r := inner s
    if r.1 then some (true, upd_ok r.2)
    else some (false, { r.2 with pos := s.pos, line := line0, col := col0 })
  | .ZERO_ONE =>
    let r := inner s
    some (true, upd_ok r.2)
  | .ZERO_PLUS =>
    match zeroPlusLoop fuel inner s with
    | none => none
    | some s1 => some (true, upd_ok s1)
  | .ONE_PLUS =>
    match onePlusLoop fuel inner s 0 with
    | none => none
    | some (counter, ps, s1) =>
      if counter > 0 then some (true, upd_ok s1)
      else some (false, { s1 with pos := ps, line := line0, col := col0 })

/-- The element sequence of one emitted alternate: elements run in order;

the first failing element ends the alternate with its restore block's
state. -/
def runAltElems (fuel : Nat) (line0 col0 : Nat) :
    List (QuantifierType × ESem) → EmitState → Option (Bool × EmitState)
  | [], s => some (true, s)
  | (q, inner) :: rest, s =>
    match elemStep fuel line0 col0 q inner s with
    | none => none
    | some (true, s1) => runAltElems fuel line0 col0 rest s1
    | some (false, s1) => some (false, s1)

/-- One emitted alternate (`print_alt`): saves `pos_start`, `line_start`

and `col_start` at entry, then runs its elements. -/
def runAlt (fuel : Nat) (elems : List (QuantifierType × ESem)) (s : EmitState) :
    Option (Bool × EmitState) :=
  runAltElems fuel s.line s.col elems s

/-! ### The emitted parser: per-rule function (`print_rule`) -/

/-- AST node of the emitted parser (position, label, children). -/
inductive ENode : Type where
  | mk : Nat → List Nat → List ENode → ENode

/-- `ASTNode::add_child`. -/
def ENode.addChild : ENode → ENode → ENode
  | .mk p t cs, c => .mk p t (cs ++ [c])

/-- `RET_FAIL` of the emitted parser. -/
def RET_FAIL : Int := 0

/-- `RET_OK` of the emitted parser. -/
def RET_OK : Int := 1

/-- `RET_INLINE` of the emitted parser. -/
def RET_INLINE : Int := 2

/-- The function emitted for a rule by `print_rule`: save the cursor; bind

`astn0` to a fresh node labelled with the rule name — or to `parent` itself
for a `mergeup` rule; run the alternates block; on failure restore the
cursor; on success attach `astn0` to `parent` unless the modifier is
`discard`, `inline` or `mergeup`; return `RET_INLINE` for an `inline` rule,
`RET_OK` for any other successful rule, `RET_FAIL` on failure. The
alternates block is abstracted as a transformer of the state and of
`astn0`. -/
def run_rule (ruleName : List Nat) (mod : List Nat)
    (alts : EmitState → ENode → Bool × EmitState × ENode)
    (s : EmitState) (parent : ENode) : Int × EmitState × ENode :=
  let astn0 : ENode := if mod = nm ("mergeup") then parent else ENode.mk s.pos ruleName []
  let r := alts s astn0
  let ok0 := r.1
  let s1 := r.2.1
  let astn1 := r.2.2
  let s2 := if ok0 then s1 else { s1 with pos := s.pos, line := s.line, col := s.col }
  let parent1 :=
    if mod = nm ("mergeup") then astn1
    else if ok0 ∧ mod ≠ nm ("discard") ∧ mod ≠ nm ("inline") then parent.addChild astn1
    else parent
  let ret := if ok0 then (if mod = nm ("inline") then RET_INLINE else RET_OK) else RET_FAIL
  (ret, s2, parent1)

/-! ### Concrete grammars used in counterexamples and witnesses -/

/-- A grammar `root : "a"; orphan : undef;` — the rule `orphan` is not

reachable from `root`, and its `NAME` element references the undefined
name `undef`. -/
def gOrphan : Grammar :=
  ⟨[(nm ("root"), ⟨nm ("root"), [], [Elem.mk ElemType.ALT [] QuantifierType.ONE
      [Elem.mk ElemType.STRING [nm ("\"a\"")] QuantifierType.ONE []]]⟩),
    (nm ("orphan"), ⟨nm ("orphan"), [], [Elem.mk ElemType.ALT [] QuantifierType.ONE
      [Elem.mk ElemType.NAME [nm ("undef")] QuantifierType.ONE []]]⟩)],
   nm ("root")⟩

/-- A grammar `root : miss;` whose root references the undefined rule

`miss`. -/
def gMiss : Grammar :=
  ⟨[(nm ("root"), ⟨nm ("root"), [], [Elem.mk ElemType.ALT [] QuantifierType.ONE
      [Elem.mk ElemType.NAME [nm ("miss")] QuantifierType.ONE []]]⟩)],
   nm ("root")⟩

/-! ### Claim theorems: direct evaluations -/

/-- C5: the claim that every two-character range of an accepted character

class has its lower bound strictly below its upper bound fails on the code:
the validation in `parse_ch_class_range` always reads the tokens at indices
1 and 3 of the element's token list, so only the first range of an
unnegated class is ever checked. The class `[a-bz-a]` is accepted although
its second range decodes to `z` (122) ≥ `a` (97); conversely the negated
class `[^a-b]` is rejected because the check compares `^` against `-`. -/
theorem C5_eval :
    parse_ch_class 50 (nm ("[a-bz-a]")) ⟨0, 1, 1⟩ [] =
      some (8, ⟨8, 1, 9⟩,
        [Elem.mk ElemType.CH_CLASS
          [[91], [97], [45], [98], [122], [45], [97], [93]] QuantifierType.ONE []]) ∧
    (decode_to_int32 (nm ("z"))).2 ≥ (decode_to_int32 (nm ("a"))).2 ∧
    parse_ch_class 50 (nm ("[^a-b]")) ⟨0, 1, 1⟩ [] = some (-1, ⟨0, 1, 1⟩, []) := by
  refine ⟨rfl, by decide, rfl⟩

/-- C6: the claim describes the intended UTF-8 recognition, but

`parse_utf8_char` checks every byte of a multi-byte sequence with
`(byte & 0xc0) != 0xc0`, so it rejects the well-formed two-byte sequence
`C3 A9` (which the authoritative decoder `utf8_to_int32` accepts as code
point 233 of length 2) and accepts the malformed sequence `C3 C9`. -/
theorem C6_eval :
    parse_utf8_char [0xC3, 0xA9] 0 = -1 ∧
    utf8_to_int32 [0xC3, 0xA9] = some (233, 2) ∧
    parse_utf8_char [0xC3, 0xC9] 0 = 2 := by
  refine ⟨rfl, rfl, rfl⟩

/-- C7: the claim says `parse_string` accepts any byte ≥ 0x20 including

bytes ≥ 0x80, but the loop guard `ch < ' '` reads the byte through the
signed `char` type without the `ch >= 0` guard used elsewhere, so a byte
≥ 0x80 terminates the literal: the string `"é"` (bytes `22 C3 A9 22`) is
rejected with the cursor restored, while a plain ASCII literal is accepted
with its raw quoted text stored as one token. -/
theorem C7_eval :
    parse_string 20 [34, 0xC3, 0xA9, 34] ⟨0, 1, 1⟩ [] = some (-1, ⟨0, 1, 1⟩, []) ∧
    parse_string 20 (nm ("\"ab\"")) ⟨0, 1, 1⟩ [] =
      some (4, ⟨4, 1, 5⟩,
        [Elem.mk ElemType.STRING [[34, 97, 98, 34]] QuantifierType.ONE []]) := by
  refine ⟨rfl, rfl⟩

/-- C9: the claim (and the `rules : ws (comment ws)* rule+;` comment above

the function) says an empty grammar fails to parse, but the `rule+` loop of
`parse_grammar` is a `while` over a non-exhausted input, so on the empty
input it runs zero times and the function returns `true`. -/
theorem C9_eval :
    parse_grammar 10 [] ⟨0, 1, 1⟩ ⟨[], []⟩ = some (true, ⟨0, 1, 1⟩, ⟨[], []⟩) := by
  rfl

/-- C1: the claim that every failing grammar-lexing primitive restores the

cursor fails on `parse_char`: on the invalid escape `\q` it consumes the
backslash and returns `-1` with the cursor advanced to position 1. -/
theorem C1_counterexample :
    parse_char (nm ("\\q")) ⟨0, 1, 1⟩ [] = (-1, ⟨1, 1, 2⟩, []) ∧
    (⟨1, 1, 2⟩ : PState) ≠ ⟨0, 1, 1⟩ := by
  refine ⟨rfl, by decide⟩

/-- C2: the claim that a failing element rolls the cursor back to the

start of the whole alternate fails on the emitted code: `pos_start_d` is
reassigned at the start of every element, so after a first element that
consumes one byte and a second element that fails, the final position is 1
(the failing element's start), not 0 (the alternate's start, to which only
`line` and `col` return). -/
theorem C2_counterexample :
    runAlt 10
      [(QuantifierType.ONE, fun s => (true, { s with pos := s.pos + 1, col := s.col + 1 })),
       (QuantifierType.ONE, fun s => (false, s))]
      ⟨0, 1, 1, 0, 1, 1⟩ = some (false, ⟨1, 1, 1, 1, 1, 2⟩) ∧
    (1 : Nat) ≠ 0 := by
  refine ⟨rfl, by decide⟩

/-- C4: the claim that the generator exits 1 on a grammar parse failure

fails on the code: after `parse_grammar` reports the duplicate rule name
`r` in `r : "a"; r : "b";` the driver prints the error message and falls
through to `return 0`. -/
theorem C4_counterexample :
    main_ret 100 2 (some (nm ("r : \"a\"; r : \"b\";"))) true = some 0 ∧
    (0 : Int) ≠ 1 := by
  refine ⟨rfl, by decide⟩

/-- C3: the claim that `check_rules` reports an undefined-rule error for

each unresolved name fails on the code: in `root : "a"; orphan : undef;`
the name `undef` referenced by the unreachable rule `orphan` is never
visited by the walk, so the only diagnostic is the unreachable-rule error
for `orphan` and no undefined-rule error for `undef` is produced. -/
theorem C3_counterexample :
    check_rules 6 gOrphan =
      some ⟨false, [nm ("root")], gOrphan.rules, [CErr.unreach (nm ("orphan"))]⟩ ∧
    nm ("undef") ∈ neighbors gOrphan.rules (nm ("orphan")) ∧
    nm ("undef") ∉ keysOf gOrphan.rules ∧
    CErr.undef (nm ("undef")) ∉ [CErr.unreach (nm ("orphan"))] := by
  refine ⟨rfl, by decide, by decide, by decide⟩

/-- C10: the claim that validating any grammar containing a `NAME` with an

undefined identifier inserts an empty rule under that name fails on the
code: in `root : "a"; orphan : undef;` the undefined name `undef` is
referenced only from the unreachable rule `orphan`, the walk never looks it
up, and the rule map after validation is exactly the parsed one. -/
theorem C10_counterexample :
    (check_rules 6 gOrphan).map CheckOut.gMut = some gOrphan.rules ∧
    nm ("undef") ∈ neighbors gOrphan.rules (nm ("orphan")) ∧
    nm ("undef") ∉ keysOf gOrphan.rules := by
  refine ⟨rfl, by decide, by decide⟩

/-! ### Cursor restoration lemmas for the primitives that do restore -/

theorem parse_id_go_ge : ∀ fuel t s len r s2,
    parse_id_go fuel t s len = some (r, s2) → (len : Int) ≤ r := by
  intro fuel
  induction fuel with
  | zero => intro t s len r s2 h; simp [parse_id_go] at h
  | succ f ih =>
    intro t s len r s2 h
    simp only [parse_id_go] at h
    split at h
    · have := ih _ _ _ _ _ h
      omega
    · simp at h
      omega

theorem parse_string_go_fail : ∀ fuel t s0 s len esc elems r s2 e2,
    parse_string_go fuel t s0 s len esc elems = some (r, s2, e2) → r = -1 →
    s2 = s0 ∧ e2 = elems := by
  intro fuel
  induction fuel with
  | zero => intro t s0 s len esc elems r s2 e2 h; simp [parse_string_go] at h
  | succ f ih =>
    intro t s0 s len esc elems r s2 e2 h hr
    simp only [parse_string_go] at h
    split at h
    · simp at h
      exact ⟨h.2.1.symm, h.2.2.symm⟩
    · split at h
      · exact ih _ _ _ _ _ _ _ _ _ h hr
      · split at h
        · simp at h
          subst hr
          omega
        · exact ih _ _ _ _ _ _ _ _ _ h hr

theorem parse_utf8_char_res (t : List Nat) (p : Nat) :
    parse_utf8_char t p = -1 ∨ 1 ≤ parse_utf8_char t p := by
  unfold parse_utf8_char
  dsimp only
  split
  · right; omega
  · split
    · left; rfl
    · rename_i n heq
      split
      · right
        split at heq
        · injection heq with hh
          omega
        · split at heq
          · injection heq with hh
            omega
          · split at heq
            · injection heq with hh
              omega
            · exact absurd heq (by simp)
      · left; rfl

theorem parse_char_res (t : List Nat) (s : PState) (tok : List (List Nat)) :
    (parse_char t s tok).1 = -1 ∨ 1 ≤ (parse_char t s tok).1 := by
  unfold parse_char
  dsimp only
  have A := parse_utf8_char_res t s.pos
  split_ifs <;> try dsimp only
  all_goals first
    | (left; rfl)
    | (right; omega)

theorem parse_ch_class_range_res (t : List Nat) (s : PState) (tok : List (List Nat)) :
    (parse_ch_class_range t s tok).1 = -1 ∨ 1 ≤ (parse_ch_class_range t s tok).1 := by
  unfold parse_ch_class_range
  dsimp only
  rcases h1 : parse_char t s tok with ⟨lc, s1, tok1⟩
  have A := parse_char_res t s tok
  rw [h1] at A
  simp only [h1]
  try dsimp only
  rcases h2 : parse_char t { s1 with pos := s1.pos + 1, col := s1.col + 1 }
      (tok1 ++ [slice t s1.pos 1]) with ⟨lc2, s2, tok2⟩
  have B := parse_char_res t { s1 with pos := s1.pos + 1, col := s1.col + 1 }
      (tok1 ++ [slice t s1.pos 1])
  rw [h2] at B
  simp only [h2]
  try dsimp only
  try dsimp only at A B
  split_ifs <;> try dsimp only
  all_goals first
    | (left; rfl)
    | (right; omega)

theorem ranges_go_ge : ∀ fuel t s tok len out,
    ranges_go fuel t s tok len = some out → len ≤ out.2.2 := by
  intro fuel
  induction fuel with
  | zero => intro t s tok len out h; simp [ranges_go] at h
  | succ f ih =>
    intro t s tok len out h
    simp only [ranges_go] at h
    try dsimp only at h
    split at h
    · simp at h
      subst h
      exact le_refl _
    · rcases hr : parse_ch_class_range t
          (if chAt t s.pos = 33 then { s with pos := s.pos + 1, col := s.col + 1 } else s)
          (if chAt t s.pos = 33 then tok ++ [[33]] else tok) with ⟨lr, sr, tokr⟩
      have A := parse_ch_class_range_res t
          (if chAt t s.pos = 33 then { s with pos := s.pos + 1, col := s.col + 1 } else s)
          (if chAt t s.pos = 33 then tok ++ [[33]] else tok)
      rw [hr] at A
      rw [hr] at h
      try dsimp only at h A
      split at h
      · simp at h
        subst h
        exact le_refl _
      · rename_i hne
        have h2 := ih _ _ _ _ _ h
        have h5 : (0 : Int) ≤ (if chAt t s.pos = 33 then (1 : Int) else 0) := by
          split <;> omega
        rcases A with A | A
        · exact absurd A hne
        · omega

/-- C1 (amended): of the six grammar-lexing primitives, `parse_id`,

`parse_string` and `parse_ch_class` do restore the cursor (and leave the
element vector unchanged) whenever they return failure; `parse_group`,
`parse_ch_class_range` and `parse_char` can return failure with the cursor
left advanced. This theorem proves the restoration half for the three
primitives that satisfy it. -/
theorem C1_amended :
    (∀ fuel t s r s2, parse_id fuel t s = some (r, s2) → r = -1 → s2 = s) ∧
    (∀ fuel t s elems r s2 e2,
      parse_string fuel t s elems = some (r, s2, e2) → r = -1 → s2 = s ∧ e2 = elems) ∧
    (∀ fuel t s elems r s2 e2,
      parse_ch_class fuel t s elems = some (r, s2, e2) → r = -1 → s2 = s ∧ e2 = elems) := by
  refine ⟨?_, ?_, ?_⟩
  · intro fuel t s r s2 h hr
    simp only [parse_id] at h
    split at h
    · simp at h
      exact h.2.symm
    · have := parse_id_go_ge _ _ _ _ _ _ h
      subst hr
      omega
  · intro fuel t s elems r s2 e2 h hr
    simp only [parse_string] at h
    split at h
    · simp at h
      exact ⟨h.2.1.symm, h.2.2.symm⟩
    · exact parse_string_go_fail _ _ _ _ _ _ _ _ _ _ h hr
  · intro fuel t s elems r s2 e2 h hr
    simp only [parse_ch_class] at h
    try dsimp only at h
    split at h
    · simp at h
      exact ⟨h.2.1.symm, h.2.2.symm⟩
    · rcases h1 : parse_ch_class_range t
          (if chAt t (s.pos + 1) = 94 then { s with pos := s.pos + 1 + 1, col := s.col + 1 + 1 }
           else { s with pos := s.pos + 1, col := s.col + 1 })
          (if chAt t (s.pos + 1) = 94 then [[91]] ++ [[94]] else [[91]]) with ⟨lr, sr, tokr⟩
      have A := parse_ch_class_range_res t
          (if chAt t (s.pos + 1) = 94 then { s with pos := s.pos + 1 + 1, col := s.col + 1 + 1 }
           else { s with pos := s.pos + 1, col := s.col + 1 })
          (if chAt t (s.pos + 1) = 94 then [[91]] ++ [[94]] else [[91]])
      rw [h1] at A
      rw [h1] at h
      try dsimp only at h A
      split at h
      · simp at h
        exact ⟨h.2.1.symm, h.2.2.symm⟩
      · rename_i hne
        split at h
        · exact absurd h (by simp)
        · rename_i out heq
          have hge := ranges_go_ge _ _ _ _ _ _ heq
          have hc : (0 : Int) ≤ (if chAt t (s.pos + 1) = 94 then (2 : Int) else 1) := by
            split <;> omega
          split at h
          · simp at h
            exact ⟨h.2.1.symm, h.2.2.symm⟩
          · rename_i hcond
            exfalso
            simp only [not_or] at hcond
            simp at h
            rcases A with A | A
            · exact absurd A hne
            · omega

/-- C1 witness: the three restoration statements applied at concrete

inputs (each primitive failing at the start of the empty input). -/
theorem C1_amended_witness :
    ((⟨0, 1, 1⟩ : PState) = ⟨0, 1, 1⟩) ∧
    ((⟨0, 1, 1⟩ : PState) = ⟨0, 1, 1⟩ ∧ ([] : List Elem) = []) ∧
    ((⟨0, 1, 1⟩ : PState) = ⟨0, 1, 1⟩ ∧ ([] : List Elem) = []) :=
  ⟨C1_amended.1 5 [] ⟨0, 1, 1⟩ (-1) ⟨0, 1, 1⟩ rfl rfl,
   C1_amended.2.1 5 [] ⟨0, 1, 1⟩ [] (-1) ⟨0, 1, 1⟩ [] rfl rfl,
   C1_amended.2.2 5 [] ⟨0, 1, 1⟩ [] (-1) ⟨0, 1, 1⟩ [] rfl rfl⟩

/-! ### Lemmas about the emitted alternate skeleton -/

theorem onePlusLoop_counter_ge : ∀ fuel inner s c out,
    onePlusLoop fuel inner s c = some out → c ≤ out.1 := by
  intro fuel
  induction fuel with
  | zero => intro inner s c out h; simp [onePlusLoop] at h
  | succ f ih =>
    intro inner s c out h
    simp only [onePlusLoop] at h
    split at h
    · have := ih _ _ _ _ h
      omega
    · simp at h
      subst h
      exact le_refl _

theorem onePlusLoop_fail_ps : ∀ fuel inner s c ps st,
    onePlusLoop fuel inner s c = some (c, ps, st) → ps = s.pos := by
  intro fuel inner s c ps st h
  match fuel with
  | 0 => simp [onePlusLoop] at h
  | f+1 =>
    simp only [onePlusLoop] at h
    split at h
    · have h2 := onePlusLoop_counter_ge _ _ _ _ _ h
      dsimp only at h2
      omega
    · simp at h
      exact h.1.symm

theorem elemStep_fail : ∀ fuel line0 col0 q inner s s1,
    elemStep fuel line0 col0 q inner s = some (false, s1) →
    s1.pos = s.pos ∧ s1.line = line0 ∧ s1.col = col0 := by
  intro fuel line0 col0 q inner s s1 h
  cases q with
  | ONE =>
    simp only [elemStep] at h
    try dsimp only at h
    split at h
    · simp at h
    · have h1 : ({ (inner s).2 with pos := s.pos, line := line0, col := col0 } : EmitState) = s1 := by
        simpa using h
      subst h1
      exact ⟨rfl, rfl, rfl⟩
  | ZERO_ONE => simp [elemStep] at h
  | ZERO_PLUS =>
    simp only [elemStep] at h
    split at h
    · exact absurd h (by simp)
    · simp at h
  | ONE_PLUS =>
    simp only [elemStep] at h
    split at h
    · exact absurd h (by simp)
    · rename_i counter ps st heq
      split at h
      · simp at h
      · rename_i hc
        have h1 : ({ st with pos := ps, line := line0, col := col0 } : EmitState) = s1 := by
          simpa using h
        have hc0 : counter = 0 := by omega
        subst hc0
        have hps := onePlusLoop_fail_ps _ _ _ _ _ _ heq
        subst h1
        exact ⟨hps, rfl, rfl⟩

theorem runAltElems_fail_decomp : ∀ fuel line0 col0 elems s s1,
    runAltElems fuel line0 col0 elems s = some (false, s1) →
    ∃ pre q inner post t, elems = pre ++ (q, inner) :: post ∧
      runAltElems fuel line0 col0 pre s = some (true, t) ∧
      elemStep fuel line0 col0 q inner t = some (false, s1) := by
  intro fuel line0 col0 elems
  induction elems with
  | nil => intro s s1 h; simp [runAltElems] at h
  | cons e rest ih =>
    intro s s1 h
    rcases e with ⟨q, inner⟩
    simp only [runAltElems] at h
    split at h
    · exact absurd h (by simp)
    · rename_i s' heq
      have h2 := ih _ _ h
      rcases h2 with ⟨pre, q2, inner2, post, t, hsplit, hrun, hstep⟩
      refine ⟨(q, inner) :: pre, q2, inner2, post, t, by simp [hsplit], ?_, hstep⟩
      simp only [runAltElems, heq]
      exact hrun
    · rename_i s' heq
      simp at h
      subst h
      exact ⟨[], q, inner, rest, s, rfl, rfl, heq⟩

/-- C2 (amended): in the emitted alternate, a failing element ends the

whole alternate, but the cursor is not rolled back to the start of the
alternate: `pos_start_d` is reassigned at the start of every element, so
`m_pos` is rolled back only to the start of the failing element — input
consumed by earlier elements of the alternate remains consumed — while
`m_line` and `m_col` are restored from the values saved at the start of
the alternate. -/
theorem C2_amended : ∀ fuel elems s s1,
    runAlt fuel elems s = some (false, s1) →
    s1.line = s.line ∧ s1.col = s.col ∧
    ∃ pre q inner post t, elems = pre ++ (q, inner) :: post ∧
      runAltElems fuel s.line s.col pre s = some (true, t) ∧
      elemStep fuel s.line s.col q inner t = some (false, s1) ∧
      s1.pos = t.pos := by
  intro fuel elems s s1 h
  have h2 := runAltElems_fail_decomp _ _ _ _ _ _ h
  rcases h2 with ⟨pre, q, inner, post, t, hsplit, hrun, hstep⟩
  have h3 := elemStep_fail _ _ _ _ _ _ _ hstep
  exact ⟨h3.2.1, h3.2.2, pre, q, inner, post, t, hsplit, hrun, hstep, h3.1⟩

/-- C2 witness: the rollback characterization applied to a concrete

two-element alternate whose first element consumes one byte. -/
theorem C2_amended_witness :
    (⟨1, 1, 1, 1, 1, 2⟩ : EmitState).line = (⟨0, 1, 1, 0, 1, 1⟩ : EmitState).line ∧
    (⟨1, 1, 1, 1, 1, 2⟩ : EmitState).col = (⟨0, 1, 1, 0, 1, 1⟩ : EmitState).col ∧
    ∃ pre q inner post t,
      [((QuantifierType.ONE : QuantifierType),
          (fun s => (true, { s with pos := s.pos + 1, col := s.col + 1 }) : ESem)),
       (QuantifierType.ONE, (fun s => (false, s) : ESem))] = pre ++ (q, inner) :: post ∧
      runAltElems 10 1 1 pre ⟨0, 1, 1, 0, 1, 1⟩ = some (true, t) ∧
      elemStep 10 1 1 q inner t = some (false, ⟨1, 1, 1, 1, 1, 2⟩) ∧
      (⟨1, 1, 1, 1, 1, 2⟩ : EmitState).pos = t.pos :=
  C2_amended 10
    [(QuantifierType.ONE, fun s => (true, { s with pos := s.pos + 1, col := s.col + 1 })),
     (QuantifierType.ONE, fun s => (false, s))]
    ⟨0, 1, 1, 0, 1, 1⟩ ⟨1, 1, 1, 1, 1, 2⟩ rfl

/-- C4 (amended): the generator's exit status is 1 exactly for the usage

error, the file-open failure and the file-read failure; when the grammar
fails to parse or to validate the driver prints the error message but still
returns 0, the same status as on success. -/
theorem C4_amended : ∀ fuel argc file read_ok r,
    main_ret fuel argc file read_ok = some r →
    ((r = 1 ↔ (argc < 2 ∨ file = none ∨ read_ok = false)) ∧ (r = 0 ∨ r = 1)) := by
  intro fuel argc file read_ok r h
  simp only [main_ret] at h
  split at h
  · rename_i hlt
    simp at h
    subst h
    simp [hlt]
  · rename_i hlt
    split at h
    · simp at h
      subst h
      simp
    · rename_i buf
      split at h
      · rename_i hro
        simp at h
        subst h
        simp [hro, hlt]
      · rename_i hro
        split at h
        · exact absurd h (by simp)
        · rename_i pg hpg
          have hr0 : r = 0 := by
            split at h
            · split at h
              · exact absurd h (by simp)
              · split at h <;> (simp at h; omega)
            · simp at h; omega
          subst hr0
          constructor
          · constructor
            · intro h1; exact absurd h1 (by norm_num)
            · intro h1
              rcases h1 with h1 | h1 | h1
              · omega
              · simp at h1
              · simp only [Bool.not_eq_false] at hro
                rw [h1] at hro
                exact absurd hro (by simp)
          · left; rfl

/-- C4 witness: the exit-status characterization applied to the usage

error (no grammar-file argument). -/
theorem C4_amended_witness :
    (((1 : Int) = 1 ↔ (1 < 2 ∨ (none : Option (List Nat)) = none ∨ true = false)) ∧
      ((1 : Int) = 0 ∨ (1 : Int) = 1)) :=
  C4_amended 10 1 none true 1 rfl

/-- C8: the function emitted for a rule attaches its local AST node to the

caller's parent exactly when the rule's modifier (drawn from the closed set
of the grammar model) is the empty string; it returns `RET_INLINE` on
success when the modifier is `inline` and `RET_OK` on success otherwise;
and on failure it restores `(pos, line, col)` to their entry values and
returns `RET_FAIL`. For a `mergeup` rule, `astn0` is the parent itself, so
no separate local node exists and none is attached. -/
theorem C8_rule_emission :
    ∀ (ruleName mod : List Nat) (alts : EmitState → ENode → Bool × EmitState × ENode)
      (s : EmitState) (parent : ENode) (ret : Int) (s2 : EmitState) (p1 : ENode)
      (ok0 : Bool) (s1 : EmitState) (a1 : ENode),
      (mod = [] ∨ mod = nm ("discard") ∨ mod = nm ("inline") ∨ mod = nm ("mergeup")) →
      run_rule ruleName mod alts s parent = (ret, s2, p1) →
      alts s (if mod = nm ("mergeup") then parent else ENode.mk s.pos ruleName []) =
        (ok0, s1, a1) →
      ((ok0 = false → ret = RET_FAIL ∧ s2.pos = s.pos ∧ s2.line = s.line ∧ s2.col = s.col) ∧
       (ok0 = true → ret = (if mod = nm ("inline") then RET_INLINE else RET_OK)) ∧
       (ok0 = true → mod = [] → p1 = parent.addChild a1) ∧
       (ok0 = true → (mod = nm ("discard") ∨ mod = nm ("inline")) → p1 = parent)) := by
  intro ruleName mod alts s parent ret s2 p1 ok0 s1 a1 hmod hrun halts
  simp only [run_rule] at hrun
  rw [halts] at hrun
  dsimp only at hrun
  have hret := congrArg Prod.fst hrun
  have hs2 := congrArg (fun x => x.2.1) hrun
  have hp1 := congrArg (fun x => x.2.2) hrun
  dsimp only at hret hs2 hp1
  refine ⟨?_, ?_, ?_, ?_⟩
  · intro hok
    subst hok
    simp only [Bool.false_eq_true, if_false] at hret hs2
    refine ⟨hret.symm, ?_, ?_, ?_⟩ <;> rw [← hs2]
  · intro hok
    subst hok
    simp only [if_true] at hret
    exact hret.symm
  · intro hok hm
    subst hok
    subst hm
    have h1 : ¬ (([] : List Nat) = nm ("mergeup")) := by decide
    have h2 : ¬ (([] : List Nat) = nm ("discard")) := by decide
    have h3 : ¬ (([] : List Nat) = nm ("inline")) := by decide
    rw [if_neg h1, if_pos ⟨rfl, h2, h3⟩] at hp1
    exact hp1.symm
  · intro hok hdi
    subst hok
    rcases hdi with hm | hm <;> subst hm
    · have h1 : ¬ (nm ("discard") = nm ("mergeup")) := by decide
      have h2 : ¬ ((true = true) ∧ nm ("discard") ≠ nm ("discard") ∧ nm ("discard") ≠ nm ("inline")) :=
        fun hh => hh.2.1 rfl
      rw [if_neg h1, if_neg h2] at hp1
      exact hp1.symm
    · have h1 : ¬ (nm ("inline") = nm ("mergeup")) := by decide
      have h2 : ¬ ((true = true) ∧ nm ("inline") ≠ nm ("discard") ∧ nm ("inline") ≠ nm ("inline")) :=
        fun hh => hh.2.2 rfl
      rw [if_neg h1, if_neg h2] at hp1
      exact hp1.symm

/-- C8 witness: the rule-emission characterization applied to a concrete

`inline` rule whose alternates block succeeds without moving the cursor. -/
theorem C8_rule_emission_witness :
    ((true = false → (RET_INLINE : Int) = RET_FAIL ∧
        (⟨0, 1, 1, 0, 1, 1⟩ : EmitState).pos = (⟨0, 1, 1, 0, 1, 1⟩ : EmitState).pos ∧
        (⟨0, 1, 1, 0, 1, 1⟩ : EmitState).line = (⟨0, 1, 1, 0, 1, 1⟩ : EmitState).line ∧
        (⟨0, 1, 1, 0, 1, 1⟩ : EmitState).col = (⟨0, 1, 1, 0, 1, 1⟩ : EmitState).col) ∧
     (true = true →
        (RET_INLINE : Int) = (if nm ("inline") = nm ("inline") then RET_INLINE else RET_OK)) ∧
     (true = true → nm ("inline") = [] →
        ENode.mk 0 (nm ("p")) [] = (ENode.mk 0 (nm ("p")) []).addChild (ENode.mk 0 (nm ("r")) [])) ∧
     (true = true → (nm ("inline") = nm ("discard") ∨ nm ("inline") = nm ("inline")) →
        ENode.mk 0 (nm ("p")) [] = ENode.mk 0 (nm ("p")) [])) :=
  C8_rule_emission (nm ("r")) (nm ("inline")) (fun s n => (true, s, n))
    ⟨0, 1, 1, 0, 1, 1⟩ (ENode.mk 0 (nm ("p")) []) RET_INLINE ⟨0, 1, 1, 0, 1, 1⟩
    (ENode.mk 0 (nm ("p")) []) true ⟨0, 1, 1, 0, 1, 1⟩ (ENode.mk 0 (nm ("r")) [])
    (Or.inr (Or.inr (Or.inl rfl))) rfl rfl

/-! ### Association-list and name-set lemmas for the validator proofs -/

theorem mem_insertSet {n m : List Nat} {l : List (List Nat)} :
    m ∈ insertSet n l ↔ m = n ∨ m ∈ l := by
  unfold insertSet
  split
  · rename_i hmem
    exact ⟨Or.inr, fun h => h.elim (fun e => e ▸ hmem) id⟩
  · simp [List.mem_append, or_comm]

theorem insertSet_sub {n : List Nat} {l : List (List Nat)} : l ⊆ insertSet n l := by
  intro m hm
  exact mem_insertSet.mpr (Or.inr hm)

theorem insertSet_self {n : List Nat} {l : List (List Nat)} : n ∈ insertSet n l :=
  mem_insertSet.mpr (Or.inl rfl)

theorem insertSet_nodup {n : List Nat} {l : List (List Nat)} (h : l.Nodup) :
    (insertSet n l).Nodup := by
  unfold insertSet
  split
  · exact h
  · rename_i hmem
    simp [List.nodup_append, h, hmem]

theorem mem_keys_lookup {rs : List (List Nat × Rule)} {n : List Nat} :
    n ∈ keysOf rs ↔ (lookupRule rs n).isSome := by
  induction rs with
  | nil => simp [keysOf, lookupRule]
  | cons p rest ih =>
    rcases p with ⟨k, r⟩
    simp only [keysOf, List.map_cons, List.mem_cons, lookupRule]
    constructor
    · intro h
      rcases h with h | h
      · rw [if_pos h.symm]; rfl
      · split
        · rfl
        · exact ih.mp h
    · intro h
      split at h
      · left; rename_i he; exact he.symm
      · right; exact ih.mpr h

theorem lookup_mem {rs : List (List Nat × Rule)} {n : List Nat} {r : Rule} :
    lookupRule rs n = some r → (n, r) ∈ rs := by
  induction rs with
  | nil => intro h; simp [lookupRule] at h
  | cons p rest ih =>
    rcases p with ⟨k, r0⟩
    intro h
    simp only [lookupRule] at h
    split at h
    · rename_i he
      injection h with h2
      subst he
      subst h2
      exact List.mem_cons_self _ _
    · exact List.mem_cons_of_mem _ (ih h)

theorem lookup_of_mem_nodup {rs : List (List Nat × Rule)} {n : List Nat} {r : Rule}
    (hnd : (keysOf rs).Nodup) (hmem : (n, r) ∈ rs) : lookupRule rs n = some r := by
  induction rs with
  | nil => simp at hmem
  | cons p rest ih =>
    rcases p with ⟨k, r0⟩
    simp only [keysOf, List.map_cons, List.nodup_cons] at hnd
    rcases List.mem_cons.mp hmem with h | h
    · injection h with h1 h2
      subst h1; subst h2
      simp [lookupRule]
    · have hk : k ≠ n := by
        intro he
        subst he
        exact hnd.1 (List.mem_map.mpr ⟨(k, r), h, rfl⟩)
      simp only [lookupRule, if_neg hk]
      exact ih hnd.2 h

theorem lookup_none_iff {rs : List (List Nat × Rule)} {n : List Nat} :
    lookupRule rs n = none ↔ n ∉ keysOf rs := by
  rw [mem_keys_lookup]
  cases h : lookupRule rs n <;> simp

theorem keysOf_append (l1 l2 : List (List Nat × Rule)) :
    keysOf (l1 ++ l2) = keysOf l1 ++ keysOf l2 := by
  simp [keysOf]

theorem lookup_append_left {l1 l2 : List (List Nat × Rule)} {n : List Nat} {r : Rule}
    (h : lookupRule l1 n = some r) : lookupRule (l1 ++ l2) n = some r := by
  induction l1 with
  | nil => simp [lookupRule] at h
  | cons p rest ih =>
    rcases p with ⟨k, r0⟩
    simp only [lookupRule] at h ⊢
    split
    · split at h
      · exact h
      · simp_all
    · split at h
      · simp_all
      · exact ih h

theorem lookup_append_right {l1 l2 : List (List Nat × Rule)} {n : List Nat}
    (h : lookupRule l1 n = none) : lookupRule (l1 ++ l2) n = lookupRule l2 n := by
  induction l1 with
  | nil => simp [lookupRule]
  | cons p rest ih =>
    rcases p with ⟨k, r0⟩
    simp only [lookupRule] at h ⊢
    split at h
    · exact absurd h (by simp)
    · rename_i hk
      rw [if_neg hk]
      exact ih h

theorem insertDefault_lookup_pres {rs : List (List Nat × Rule)} {n m : List Nat} {r : Rule}
    (h : lookupRule rs m = some r) : lookupRule (insertDefault rs n) m = some r := by
  unfold insertDefault
  split
  · exact h
  · exact lookup_append_left h

theorem insertDefault_self (rs : List (List Nat × Rule)) (n : List Nat) :
    (lookupRule (insertDefault rs n) n).isSome := by
  unfold insertDefault
  split
  · assumption
  · rename_i hns
    have h0 : lookupRule rs n = none := by
      cases h : lookupRule rs n
      · rfl
      · rw [h] at hns; simp at hns
    rw [lookup_append_right h0]
    simp [lookupRule]

theorem insertDefault_mem_keys {rs : List (List Nat × Rule)} {n m : List Nat} :
    m ∈ keysOf (insertDefault rs n) ↔ m ∈ keysOf rs ∨ m = n := by
  unfold insertDefault
  split
  · rename_i hsome
    constructor
    · exact Or.inl
    · intro h
      rcases h with h | h
      · exact h
      · subst h
        exact mem_keys_lookup.mpr hsome
  · rw [keysOf_append]
    simp [keysOf]

theorem insertDefault_keys_sub {rs : List (List Nat × Rule)} {n : List Nat} :
    keysOf rs ⊆ keysOf (insertDefault rs n) := by
  intro m hm
  exact insertDefault_mem_keys.mpr (Or.inl hm)

theorem insertDefault_nodup {rs : List (List Nat × Rule)} {n : List Nat}
    (h : (keysOf rs).Nodup) : (keysOf (insertDefault rs n)).Nodup := by
  unfold insertDefault
  split
  · exact h
  · rename_i hns
    have h0 : n ∉ keysOf rs := by
      intro hmem
      exact hns (mem_keys_lookup.mp hmem)
    rw [keysOf_append]
    rw [List.nodup_append]
    refine ⟨h, by simp [keysOf], ?_⟩
    intro x hx hy
    simp only [keysOf, List.map_cons, List.map_nil, List.mem_singleton] at hy
    subst hy
    exact h0 hx

theorem insertDefault_lookup_rev {rs : List (List Nat × Rule)} {n m : List Nat} {r : Rule}
    (h : lookupRule (insertDefault rs n) m = some r) :
    lookupRule rs m = some r ∨ (m = n ∧ r = emptyRule) := by
  unfold insertDefault at h
  split at h
  · exact Or.inl h
  · cases h2 : lookupRule rs m with
    | some r2 =>
      left
      rw [lookup_append_left h2] at h
      injection h with h3
      rw [h3]
    | none =>
      right
      rw [lookup_append_right h2] at h
      simp only [lookupRule] at h
      split at h
      · rename_i he
        injection h with h3
        exact ⟨he.symm, h3.symm⟩
      · exact absurd h (by simp)

/-! ### The rule map through the walk: original rules plus empty insertions -/

/-- Relation between the original rule map and the map mutated by

`check_rules`: original keys still look up their original rules, any other
key that resolves resolves to an (inserted) empty-bodied rule, and the keys
stay unique. -/
structure MapInv (g0 : Grammar) (rs : List (List Nat × Rule)) : Prop where
  pres : ∀ n, n ∈ keysOf g0.rules → lookupRule rs n = lookupRule g0.rules n
  extra : ∀ n r, n ∉ keysOf g0.rules → lookupRule rs n = some r → r.elems = []
  nd : (keysOf rs).Nodup

theorem MapInv.init {g0 : Grammar} (h : (keysOf g0.rules).Nodup) : MapInv g0 g0.rules :=
  ⟨fun _ _ => rfl, fun n r hn hl => absurd (mem_keys_lookup.mpr (by rw [hl]; rfl)) hn, h⟩

theorem MapInv.keys_g0_sub {g0 : Grammar} {rs : List (List Nat × Rule)}
    (h : MapInv g0 rs) : ∀ n, n ∈ keysOf g0.rules → n ∈ keysOf rs := by
  intro n hn
  rw [mem_keys_lookup, h.pres n hn, ← mem_keys_lookup]
  exact hn

theorem MapInv.neighbors_eq {g0 : Grammar} {rs : List (List Nat × Rule)}
    (h : MapInv g0 rs) (n : List Nat) : neighbors rs n = neighbors g0.rules n := by
  by_cases hn : n ∈ keysOf g0.rules
  · unfold neighbors
    rw [h.pres n hn]
  · have h0 : lookupRule g0.rules n = none := lookup_none_iff.mpr hn
    unfold neighbors
    rw [h0]
    cases h2 : lookupRule rs n with
    | none => rfl
    | some r =>
      dsimp only
      rw [h.extra n r hn h2]
      rfl

theorem MapInv.insertDefault_pres {g0 : Grammar} {rs : List (List Nat × Rule)}
    (h : MapInv g0 rs) (n : List Nat) : MapInv g0 (insertDefault rs n) := by
  refine ⟨?_, ?_, insertDefault_nodup h.nd⟩
  · intro m hm
    have h1 : (lookupRule g0.rules m).isSome := mem_keys_lookup.mp hm
    cases h2 : lookupRule g0.rules m with
    | none => rw [h2] at h1; simp at h1
    | some r =>
      have h3 := h.pres m hm
      rw [h2] at h3
      exact insertDefault_lookup_pres h3
  · intro m r hm hl
    rcases insertDefault_lookup_rev hl with h2 | h2
    · exact h.extra m r hm h2
    · rw [h2.2]
      rfl

/-! ### Lemmas about `check_rule_elems` (name collection) -/

mutual

theorem collectElem_sub : ∀ (tv vis : List (List Nat)) (e : Elem) (acc : List (List Nat))
    (m : List Nat), m ∈ collectElem tv vis e acc → m ∈ acc ∨ m ∈ elemNames e
  | tv, vis, .mk ty txt q subs, acc, m => by
    intro h
    simp only [collectElem] at h
    have h2 := collectList_sub tv vis subs _ m h
    rcases h2 with h2 | h2
    · split at h2
      · split at h2
        · rcases mem_insertSet.mp h2 with h3 | h3
          · right
            simp only [elemNames]
            rename_i hty _
            rw [if_pos hty]
            simp [h3]
          · left; exact h3
        · left; exact h2
      · left; exact h2
    · right
      simp only [elemNames]
      simp [h2]

theorem collectList_sub : ∀ (tv vis : List (List Nat)) (es : List Elem)
    (acc : List (List Nat)) (m : List Nat),
    m ∈ collectList tv vis es acc → m ∈ acc ∨ m ∈ elemNamesList es
  | tv, vis, [], acc, m => by
    intro h
    simp only [collectList] at h
    left; exact h
  | tv, vis, e :: rest, acc, m => by
    intro h
    simp only [collectList] at h
    have h2 := collectList_sub tv vis rest _ m h
    rcases h2 with h2 | h2
    · have h3 := collectElem_sub tv vis e acc m h2
      rcases h3 with h3 | h3
      · left; exact h3
      · right
        simp only [elemNamesList, List.mem_append]
        exact Or.inl h3
    · right
      simp only [elemNamesList, List.mem_append]
      exact Or.inr h2

end

mutual

theorem collectElem_mono : ∀ (tv vis : List (List Nat)) (e : Elem) (acc : List (List Nat))
    (m : List Nat), m ∈ acc → m ∈ collectElem tv vis e acc
  | tv, vis, .mk ty txt q subs, acc, m => by
    intro h
    simp only [collectElem]
    apply collectList_mono
    split
    · split
      · exact insertSet_sub h
      · exact h
    · exact h

theorem collectList_mono : ∀ (tv vis : List (List Nat)) (es : List Elem)
    (acc : List (List Nat)) (m : List Nat), m ∈ acc → m ∈ collectList tv vis es acc
  | tv, vis, [], acc, m => by
    intro h
    simpa [collectList] using h
  | tv, vis, e :: rest, acc, m => by
    intro h
    simp only [collectList]
    exact collectList_mono tv vis rest _ m (collectElem_mono tv vis e acc m h)

end

mutual

theorem collectElem_cover : ∀ (tv vis : List (List Nat)) (e : Elem) (acc : List (List Nat))
    (m : List Nat), m ∈ elemNames e →
    m ∈ tv ∨ m ∈ vis ∨ m ∈ collectElem tv vis e acc
  | tv, vis, .mk ty txt q subs, acc, m => by
    intro h
    simp only [elemNames, List.mem_append] at h
    rcases h with h | h
    · split at h
      · rename_i hty
        simp only [List.mem_singleton] at h
        subst h
        by_cases h1 : txt.headD [] ∈ tv
        · exact Or.inl h1
        · by_cases h2 : txt.headD [] ∈ vis
          · exact Or.inr (Or.inl h2)
          · right; right
            simp only [collectElem, if_pos hty, if_pos (And.intro h1 h2)]
            exact collectList_mono tv vis subs _ _ insertSet_self
      · simp at h
    · have h2 := collectList_cover tv vis subs
        (if ty = ElemType.NAME then
          (if txt.headD [] ∉ tv ∧ txt.headD [] ∉ vis then insertSet (txt.headD []) acc else acc)
         else acc) m h
      rcases h2 with h2 | h2 | h2
      · exact Or.inl h2
      · exact Or.inr (Or.inl h2)
      · right; right
        simp only [collectElem]
        exact h2

theorem collectList_cover : ∀ (tv vis : List (List Nat)) (es : List Elem)
    (acc : List (List Nat)) (m : List Nat), m ∈ elemNamesList es →
    m ∈ tv ∨ m ∈ vis ∨ m ∈ collectList tv vis es acc
  | tv, vis, [], acc, m => by
    intro h
    simp [elemNamesList] at h
  | tv, vis, e :: rest, acc, m => by
    intro h
    simp only [elemNamesList, List.mem_append] at h
    rcases h with h | h
    · have h2 := collectElem_cover tv vis e acc m h
      rcases h2 with h2 | h2 | h2
      · exact Or.inl h2
      · exact Or.inr (Or.inl h2)
      · right; right
        simp only [collectList]
        exact collectList_mono tv vis rest _ m h2
    · have h2 := collectList_cover tv vis rest (collectElem tv vis e acc) m h
      rcases h2 with h2 | h2 | h2
      · exact Or.inl h2
      · exact Or.inr (Or.inl h2)
      · right; right
        simp only [collectList]
        exact h2

end

mutual

theorem collectElem_nodup : ∀ (tv vis : List (List Nat)) (e : Elem) (acc : List (List Nat)),
    acc.Nodup → (collectElem tv vis e acc).Nodup
  | tv, vis, .mk ty txt q subs, acc => by
    intro h
    simp only [collectElem]
    apply collectList_nodup
    split
    · split
      · exact insertSet_nodup h
      · exact h
    · exact h

theorem collectList_nodup : ∀ (tv vis : List (List Nat)) (es : List Elem)
    (acc : List (List Nat)), acc.Nodup → (collectList tv vis es acc).Nodup
  | tv, vis, [], acc => by
    intro h
    simpa [collectList] using h
  | tv, vis, e :: rest, acc => by
    intro h
    simp only [collectList]
    exact collectList_nodup tv vis rest _ (collectElem_nodup tv vis e acc h)

end

/-! ### Invariants of the `check_rules` walk -/

theorem elemsOfName_names (rs : List (List Nat × Rule)) (n : List Nat) :
    elemNamesList (elemsOfName rs n) = neighbors rs n := by
  unfold elemsOfName neighbors
  cases lookupRule rs n with
  | none => rfl
  | some r => rfl

/-- Invariant of the outer loop of `check_rules`, relating the pending set

`tv` and the state to the original grammar `g0`. -/
structure Inv (g0 : Grammar) (tv : List (List Nat)) (st : BfsSt) : Prop where
  mapInv : MapInv g0 st.gMut
  keysSub : ∀ k, k ∈ keysOf st.gMut → k ∈ keysOf g0.rules ∨ k ∈ st.vis
  visSub : ∀ v, v ∈ st.vis → v ∈ keysOf st.gMut
  visNd : st.vis.Nodup
  tvNd : tv.Nodup
  disj : ∀ n, n ∈ tv → n ∉ st.vis
  tvReach : ∀ n, n ∈ tv → Reaches g0 n
  visReach : ∀ n, n ∈ st.vis → Reaches g0 n
  rootIn : g0.rule_root ∈ tv ∨ g0.rule_root ∈ st.vis
  closed : ∀ v, v ∈ st.vis → ∀ m, m ∈ neighbors g0.rules v → m ∈ st.vis ∨ m ∈ tv
  retIff : st.retval = true ↔ ∀ n, n ∈ st.vis → n ∈ keysOf g0.rules
  undefPres : ∀ n, n ∈ st.vis → n ∉ keysOf g0.rules → CErr.undef n ∈ st.errs

/-- Invariant of one round of the walk: `tvAll` is the full `to_visit` of

the round, `rest` its unprocessed suffix. -/
structure RInv (g0 : Grammar) (tvAll rest : List (List Nat)) (st : BfsSt) : Prop where
  mapInv : MapInv g0 st.gMut
  keysSub : ∀ k, k ∈ keysOf st.gMut → k ∈ keysOf g0.rules ∨ k ∈ st.vis
  visSub : ∀ v, v ∈ st.vis → v ∈ keysOf st.gMut
  visNd : st.vis.Nodup
  restNd : rest.Nodup
  restDisj : ∀ n, n ∈ rest → n ∉ st.vis
  restSubTv : ∀ n, n ∈ rest → n ∈ tvAll
  tvAllReach : ∀ n, n ∈ tvAll → Reaches g0 n
  visReach : ∀ n, n ∈ st.vis → Reaches g0 n
  rootInR : g0.rule_root ∈ tvAll ∨ g0.rule_root ∈ st.vis
  closedR : ∀ v, v ∈ st.vis → ∀ m, m ∈ neighbors g0.rules v →
    m ∈ st.vis ∨ m ∈ tvAll ∨ m ∈ st.tvn
  retIff : st.retval = true ↔ ∀ n, n ∈ st.vis → n ∈ keysOf g0.rules
  undefPres : ∀ n, n ∈ st.vis → n ∉ keysOf g0.rules → CErr.undef n ∈ st.errs
  tvnReach : ∀ n, n ∈ st.tvn → Reaches g0 n
  tvnNd : st.tvn.Nodup
  processed : ∀ k, k ∈ tvAll → k ∈ rest ∨ k ∈ st.vis

theorem processName_inv {g0 : Grammar} {tvAll rest : List (List Nat)} {st : BfsSt}
    {n : List Nat} (h : RInv g0 tvAll (n :: rest) st) :
    RInv g0 tvAll rest (processName tvAll st n) := by
  have hnv : n ∉ st.vis := h.restDisj n (List.mem_cons_self _ _)
  have hnTv : n ∈ tvAll := h.restSubTv n (List.mem_cons_self _ _)
  have hnReach : Reaches g0 n := h.tvAllReach n hnTv
  have hnns : n ∉ rest := (List.nodup_cons.mp h.restNd).1
  have hiff : (lookupRule st.gMut n).isNone = true ↔ n ∉ keysOf g0.rules := by
    rw [Option.isNone_iff_eq_none, lookup_none_iff]
    constructor
    · intro h1 h2
      exact h1 (h.mapInv.keys_g0_sub n h2)
    · intro h1 h2
      rcases h.keysSub n h2 with h3 | h3
      · exact h1 h3
      · exact hnv h3
  have hneq : elemNamesList (elemsOfName (insertDefault st.gMut n) n) = neighbors g0.rules n := by
    rw [elemsOfName_names]
    exact (h.mapInv.insertDefault_pres n).neighbors_eq n
  refine ⟨?_, ?_, ?_, ?_, ?_, ?_, ?_, h.tvAllReach, ?_, ?_, ?_, ?_, ?_, ?_, ?_, ?_⟩
  · exact h.mapInv.insertDefault_pres n
  · intro k hk
    rcases insertDefault_mem_keys.mp hk with h1 | h1
    · rcases h.keysSub k h1 with h2 | h2
      · exact Or.inl h2
      · exact Or.inr (insertSet_sub h2)
    · subst h1
      exact Or.inr insertSet_self
  · intro v hv
    rcases mem_insertSet.mp hv with h1 | h1
    · subst h1
      exact mem_keys_lookup.mpr (insertDefault_self st.gMut v)
    · exact insertDefault_keys_sub (h.visSub v h1)
  · exact insertSet_nodup h.visNd
  · exact (List.nodup_cons.mp h.restNd).2
  · intro m hm hmem
    rcases mem_insertSet.mp hmem with h1 | h1
    · subst h1
      exact hnns hm
    · exact h.restDisj m (List.mem_cons_of_mem _ hm) h1
  · intro m hm
    exact h.restSubTv m (List.mem_cons_of_mem _ hm)
  · intro v hv
    rcases mem_insertSet.mp hv with h1 | h1
    · subst h1
      exact hnReach
    · exact h.visReach v h1
  · rcases h.rootInR with h1 | h1
    · exact Or.inl h1
    · exact Or.inr (insertSet_sub h1)
  · intro v hv m hm
    rcases mem_insertSet.mp hv with h1 | h1
    · subst h1
      rw [← hneq] at hm
      rcases collectList_cover tvAll (insertSet v st.vis) _ st.tvn m hm with h2 | h2 | h2
      · exact Or.inr (Or.inl h2)
      · exact Or.inl h2
      · exact Or.inr (Or.inr h2)
    · rcases h.closedR v h1 m hm with h2 | h2 | h2
      · exact Or.inl (insertSet_sub h2)
      · exact Or.inr (Or.inl h2)
      · exact Or.inr (Or.inr (collectList_mono _ _ _ _ _ h2))
  · show (if (lookupRule st.gMut n).isNone then false else st.retval) = true ↔ _
    by_cases hu : (lookupRule st.gMut n).isNone = true
    · rw [if_pos hu]
      have hng : n ∉ keysOf g0.rules := hiff.mp hu
      constructor
      · intro h1; exact absurd h1 (by simp)
      · intro h1
        exact absurd (h1 n insertSet_self) hng
    · rw [if_neg hu]
      have hng : n ∈ keysOf g0.rules := by
        by_contra h1
        exact hu (hiff.mpr h1)
      rw [h.retIff]
      constructor
      · intro h1 v hv
        rcases mem_insertSet.mp hv with h2 | h2
        · subst h2; exact hng
        · exact h1 v h2
      · intro h1 v hv
        exact h1 v (insertSet_sub hv)
  · intro v hv hng
    show CErr.undef v ∈ (if (lookupRule st.gMut n).isNone then st.errs ++ [CErr.undef n] else st.errs)
    rcases mem_insertSet.mp hv with h1 | h1
    · subst h1
      rw [if_pos (hiff.mpr hng)]
      simp
    · have h2 := h.undefPres v h1 hng
      split
      · exact List.mem_append_left _ h2
      · exact h2
  · intro m hm
    rcases collectList_sub _ _ _ _ _ hm with h1 | h1
    · exact h.tvnReach m h1
    · rw [hneq] at h1
      exact Relation.ReflTransGen.tail hnReach h1
  · exact collectList_nodup _ _ _ _ h.tvnNd
  · intro k hk
    rcases h.processed k hk with h1 | h1
    · rcases List.mem_cons.mp h1 with h2 | h2
      · subst h2
        exact Or.inr insertSet_self
      · exact Or.inl h2
    · exact Or.inr (insertSet_sub h1)

theorem foldl_inv {g0 : Grammar} {tvAll : List (List Nat)} :
    ∀ (rest : List (List Nat)) (st : BfsSt), RInv g0 tvAll rest st →
    RInv g0 tvAll [] (rest.foldl (processName tvAll) st) := by
  intro rest
  induction rest with
  | nil => intro st h; exact h
  | cons n rest' ih =>
    intro st h
    exact ih _ (processName_inv h)

theorem Inv.toRInv {g0 : Grammar} {tv : List (List Nat)} {st : BfsSt}
    (h : Inv g0 tv st) : RInv g0 tv tv { st with tvn := [] } := by
  refine ⟨h.mapInv, h.keysSub, h.visSub, h.visNd, h.tvNd, h.disj, fun n hn => hn,
    h.tvReach, h.visReach, h.rootIn, ?_, h.retIff, h.undefPres, ?_, List.nodup_nil,
    fun k hk => Or.inl hk⟩
  · intro v hv m hm
    rcases h.closed v hv m hm with h1 | h1
    · exact Or.inl h1
    · exact Or.inr (Or.inl h1)
  · intro n hn
    simp at hn

theorem RInv.toInv {g0 : Grammar} {tvAll : List (List Nat)} {st : BfsSt}
    (h : RInv g0 tvAll [] st) :
    Inv g0 (st.tvn.filter (fun x => decide (x ∉ st.vis))) st := by
  have hproc : ∀ k, k ∈ tvAll → k ∈ st.vis := by
    intro k hk
    rcases h.processed k hk with h1 | h1
    · simp at h1
    · exact h1
  refine ⟨h.mapInv, h.keysSub, h.visSub, h.visNd, ?_, ?_, ?_, h.visReach, ?_, ?_,
    h.retIff, h.undefPres⟩
  · exact h.tvnNd.filter _
  · intro n hn
    have h1 := (List.mem_filter.mp hn).2
    simpa using h1
  · intro n hn
    exact h.tvnReach n (List.mem_filter.mp hn).1
  · rcases h.rootInR with h1 | h1
    · exact Or.inr (hproc _ h1)
    · exact Or.inr h1
  · intro v hv m hm
    rcases h.closedR v hv m hm with h1 | h1 | h1
    · exact Or.inl h1
    · exact Or.inl (hproc _ h1)
    · by_cases h2 : m ∈ st.vis
      · exact Or.inl h2
      · refine Or.inr (List.mem_filter.mpr ⟨h1, ?_⟩)
        simpa using h2

theorem bfsLoop_inv {g0 : Grammar} : ∀ (fuel : Nat) (tv : List (List Nat)) (st stF : BfsSt),
    Inv g0 tv st → bfsLoop fuel tv st = some stF → Inv g0 [] stF := by
  intro fuel
  induction fuel with
  | zero =>
    intro tv st stF hInv h
    unfold bfsLoop at h
    split at h
    · rename_i he
      subst he
      injection h with h2
      subst h2
      exact hInv
    · simp at h
  | succ f ih =>
    intro tv st stF hInv h
    unfold bfsLoop at h
    split at h
    · rename_i he
      subst he
      injection h with h2
      subst h2
      exact hInv
    · exact ih _ _ _ ((foldl_inv tv _ hInv.toRInv).toInv) h

theorem Inv.vis_reach_iff {g0 : Grammar} {st : BfsSt} (h : Inv g0 [] st) :
    ∀ n, n ∈ st.vis ↔ Reaches g0 n := by
  intro n
  constructor
  · exact h.visReach n
  · intro hr
    have hroot : g0.rule_root ∈ st.vis := by
      rcases h.rootIn with h1 | h1
      · simp at h1
      · exact h1
    induction hr with
    | refl => exact hroot
    | tail hab hstep ih =>
      rcases h.closed _ ih _ hstep with h1 | h1
      · exact h1
      · simp at h1

/-! ### Full characterization of `check_rules` -/

theorem nodup_subset_length_iff {K vis : List (List Nat)} (hK : K.Nodup) (hv : vis.Nodup)
    (hsub : vis ⊆ K) : (K.length ≤ vis.length ↔ K ⊆ vis) := by
  constructor
  · intro hlen
    have h1 : vis.Subperm K := List.subperm_of_subset hv hsub
    have h2 := h1.perm_of_length_le hlen
    intro a ha
    exact h2.mem_iff.mpr ha
  · intro hKsub
    exact (List.subperm_of_subset hK hKsub).length_le

theorem Inv.start {g : Grammar} (hnd : (keysOf g.rules).Nodup) :
    Inv g [g.rule_root] ⟨[], g.rules, [], true, []⟩ := by
  refine ⟨MapInv.init hnd, fun k hk => Or.inl hk, ?_, List.nodup_nil, ?_, ?_, ?_, ?_,
    Or.inl (List.mem_singleton.mpr rfl), ?_, ?_, ?_⟩
  · intro v hv; simp at hv
  · simp
  · intro n hn; simp
  · intro n hn
    rw [List.mem_singleton.mp hn]
    exact Relation.ReflTransGen.refl
  · intro n hn; simp at hn
  · intro v hv; simp at hv
  · constructor
    · intro _ n hn; simp at hn
    · intro _; rfl
  · intro n hn; simp at hn

theorem check_rules_spec : ∀ (fuel : Nat) (g : Grammar) (out : CheckOut),
    (keysOf g.rules).Nodup → g.rule_root ∈ keysOf g.rules →
    check_rules fuel g = some out →
    ((∀ n, n ∈ out.vis ↔ Reaches g n) ∧
     (∀ n, n ∈ keysOf g.rules → n ∈ keysOf out.gMut) ∧
     (∀ v, v ∈ out.vis → v ∈ keysOf out.gMut) ∧
     (out.retval = true ↔ ((∀ n, Reaches g n → n ∈ keysOf g.rules) ∧
        (∀ k, k ∈ keysOf g.rules → Reaches g k))) ∧
     (∀ n, Reaches g n → n ∉ keysOf g.rules → CErr.undef n ∈ out.errs) ∧
     (∀ k, k ∈ keysOf g.rules → ¬ Reaches g k → CErr.unreach k ∈ out.errs)) := by
  intro fuel g out hnd hroot h
  unfold check_rules at h
  split at h
  · simp at h
  · rename_i st heq
    have hInv : Inv g [] st := bfsLoop_inv fuel _ _ _ (Inv.start hnd) heq
    have hvr := hInv.vis_reach_iff
    have hkg := hInv.mapInv.keys_g0_sub
    have hlen : st.gMut.length = (keysOf st.gMut).length := by simp [keysOf]
    have hlenIff : (st.gMut.length ≤ st.vis.length ↔ keysOf st.gMut ⊆ st.vis) := by
      rw [hlen]
      exact nodup_subset_length_iff hInv.mapInv.nd hInv.visNd (fun v hv => hInv.visSub v hv)
    have hsubIff : keysOf st.gMut ⊆ st.vis ↔ (∀ k, k ∈ keysOf g.rules → Reaches g k) := by
      constructor
      · intro hs k hk
        exact (hvr k).mp (hs (hkg k hk))
      · intro hall k hk
        rcases hInv.keysSub k hk with h1 | h1
        · exact (hvr k).mpr (hall k h1)
        · exact h1
    have hretIff2 : st.retval = true ↔ (∀ n, Reaches g n → n ∈ keysOf g.rules) := by
      rw [hInv.retIff]
      constructor
      · intro h1 n hr
        exact h1 n ((hvr n).mpr hr)
      · intro h1 n hn
        exact h1 n ((hvr n).mp hn)
    split at h
    · rename_i hgt
      injection h with h2
      subst h2
      refine ⟨hvr, hkg, hInv.visSub, ?_, ?_, ?_⟩
      · constructor
        · intro h1; exact absurd h1 (by simp)
        · rintro ⟨_, hall⟩
          exfalso
          have := hlenIff.mpr (hsubIff.mpr hall)
          omega
      · intro n hr hng
        exact List.mem_append_left _ (hInv.undefPres n ((hvr n).mpr hr) hng)
      · intro k hk hnr
        refine List.mem_append_right _ ?_
        refine List.mem_map.mpr ⟨k, ?_, rfl⟩
        refine List.mem_filter.mpr ⟨hkg k hk, ?_⟩
        have : k ∉ st.vis := fun h2 => hnr ((hvr k).mp h2)
        simpa using this
    · rename_i hle
      injection h with h2
      subst h2
      have hall : ∀ k, k ∈ keysOf g.rules → Reaches g k :=
        hsubIff.mp (hlenIff.mp (by omega))
      refine ⟨hvr, hkg, hInv.visSub, ?_, ?_, ?_⟩
      · exact ⟨fun h1 => ⟨hretIff2.mp h1, hall⟩, fun h1 => hretIff2.mpr h1.1⟩
      · intro n hr hng
        exact hInv.undefPres n ((hvr n).mpr hr) hng
      · intro k hk hnr
        exact absurd (hall k hk) hnr

theorem reach_chars_iff {g : Grammar} (hnd : (keysOf g.rules).Nodup)
    (hroot : g.rule_root ∈ keysOf g.rules) :
    (((∀ n, Reaches g n → n ∈ keysOf g.rules) ∧ (∀ k, k ∈ keysOf g.rules → Reaches g k))
      ↔ (allNamesDefined g ∧ allReachable g)) := by
  constructor
  · rintro ⟨hdef, hall⟩
    constructor
    · intro p hp m hm
      rcases p with ⟨k, r⟩
      have hk : k ∈ keysOf g.rules := List.mem_map.mpr ⟨(k, r), hp, rfl⟩
      have hlk : lookupRule g.rules k = some r := lookup_of_mem_nodup hnd hp
      have hnb : m ∈ neighbors g.rules k := by
        unfold neighbors
        rw [hlk]
        exact hm
      exact hdef m (Relation.ReflTransGen.tail (hall k hk) hnb)
    · intro p hp
      rcases p with ⟨k, r⟩
      exact hall k (List.mem_map.mpr ⟨(k, r), hp, rfl⟩)
  · rintro ⟨hnames, hall⟩
    constructor
    · intro n hr
      induction hr with
      | refl => exact hroot
      | tail hab hstep ih =>
        rename_i b c
        have hb : (lookupRule g.rules b).isSome := mem_keys_lookup.mp ih
        cases hlk : lookupRule g.rules b with
        | none => rw [hlk] at hb; simp at hb
        | some r =>
          have hmem : (b, r) ∈ g.rules := lookup_mem hlk
          have hnb : c ∈ elemNamesList r.elems := by
            have := hstep
            unfold Step neighbors at this
            rw [hlk] at this
            exact this
          exact hnames (b, r) hmem c hnb
    · intro k hk
      rcases List.mem_map.mp hk with ⟨p, hp, he⟩
      rw [← he]
      exact hall p hp

/-- C3 (amended): for every parsed grammar with root rule set (root present

among the unique rule keys), `check_rules` returns true if and only if every
`NAME` element's identifier (including those nested in `ALT`/`GROUP`
sub-elements) names a rule present in the grammar and every rule is
reachable from the root; it reports an undefined-rule error for each
unresolved name *reachable from the root* (names referenced only from
unreachable rules are not visited and not reported) and an unreachable-rule
error for each unreached rule. -/
theorem C3_amended : ∀ (fuel : Nat) (g : Grammar) (out : CheckOut),
    (keysOf g.rules).Nodup → g.rule_root ∈ keysOf g.rules →
    check_rules fuel g = some out →
    ((out.retval = true ↔ (allNamesDefined g ∧ allReachable g)) ∧
     (∀ n, Reaches g n → n ∉ keysOf g.rules → CErr.undef n ∈ out.errs) ∧
     (∀ k, k ∈ keysOf g.rules → ¬ Reaches g k → CErr.unreach k ∈ out.errs)) := by
  intro fuel g out hnd hroot h
  have hs := check_rules_spec fuel g out hnd hroot h
  exact ⟨hs.2.2.2.1.trans (reach_chars_iff hnd hroot), hs.2.2.2.2.1, hs.2.2.2.2.2⟩

/-- C3 witness: the characterization applied to the grammar `root : miss;`

— the reachable undefined name `miss` is reported. -/
theorem C3_amended_witness :
    CErr.undef (nm ("miss")) ∈
      (CheckOut.mk false [nm ("root"), nm ("miss")]
        (gMiss.rules ++ [(nm ("miss"), emptyRule)]) [CErr.undef (nm ("miss"))]).errs :=
  (C3_amended 6 gMiss
      ⟨false, [nm ("root"), nm ("miss")], gMiss.rules ++ [(nm ("miss"), emptyRule)],
        [CErr.undef (nm ("miss"))]⟩
      (by decide) (by decide) rfl).2.1
    (nm ("miss"))
    (Relation.ReflTransGen.single
      (show nm ("miss") ∈ neighbors gMiss.rules gMiss.rule_root by decide))
    (by decide)

/-- C10 (amended): validating a grammar does mutate the rule map, but only

for undefined names *reachable from the root*: every such name is inserted
as an empty rule by `std::map::operator[]`, so the key set after validation
differs from the parsed one. (An undefined name referenced only from an
unreachable rule is never looked up and causes no insertion — see the
counterexample.) -/
theorem C10_amended : ∀ (fuel : Nat) (g : Grammar) (out : CheckOut) (n : List Nat),
    (keysOf g.rules).Nodup → g.rule_root ∈ keysOf g.rules →
    check_rules fuel g = some out →
    Reaches g n → n ∉ keysOf g.rules →
    (n ∈ keysOf out.gMut ∧ keysOf out.gMut ≠ keysOf g.rules) := by
  intro fuel g out n hnd hroot h hr hng
  have hs := check_rules_spec fuel g out hnd hroot h
  have hv : n ∈ out.vis := (hs.1 n).mpr hr
  have hk : n ∈ keysOf out.gMut := hs.2.2.1 n hv
  refine ⟨hk, ?_⟩
  intro he
  rw [he] at hk
  exact hng hk

/-- C10 witness: validating `root : miss;` inserts the empty rule `miss`,

so the key set after validation differs from the parsed one. -/
theorem C10_amended_witness :
    nm ("miss") ∈ keysOf (gMiss.rules ++ [(nm ("miss"), emptyRule)]) ∧
    keysOf (gMiss.rules ++ [(nm ("miss"), emptyRule)]) ≠ keysOf gMiss.rules :=
  C10_amended 6 gMiss
    ⟨false, [nm ("root"), nm ("miss")], gMiss.rules ++ [(nm ("miss"), emptyRule)],
      [CErr.undef (nm ("miss"))]⟩
    (nm ("miss")) (by decide) (by decide) rfl
    (Relation.ReflTransGen.single
      (show nm ("miss") ∈ neighbors gMiss.rules gMiss.rule_root by decide))
    (by decide)

end IPG
